import Mathlib

/-!
Verification of the Bitburner utility scripts (deploy / remove / serverinfo).

The development shallowly embeds the algorithmic parts of the repository:
the breadth-first traversals (`getServersUpToLevel`, `getServersAtHops`,
`getPathToServer`), the two thread-sizing policies (`calculateThreads` in
its table and available-capacity variants), the `canNuke` capability checks,
the exclusion-filter pipeline, and the per-server remove/deploy action loops.

Modelling conventions:
* The in-game network is a finite graph given as an association list from a
  hostname to its `ns.scan` neighbor list; hostnames are `String`s.
* JS numbers that carry RAM amounts are modelled as `Rat` (the game uses
  fractional GB values); `Math.floor` is `Int.floor`.
* Side effects (`ns.exec`, `ns.kill`, `ns.rm`, `ns.scp`, `ns.nuke`,
  `ns.sleep`, `ns.tprint`) are modelled as an emitted trace of `Effect`
  values; printed messages are represented by structured `Msg` events
  carrying the data interpolated at the corresponding `tprint` site.
-/

namespace Bitburner

/-- A finite server graph: for each listed hostname, the neighbor list that
`ns.scan` returns for it.  Hostnames not listed scan to `[]`. -/
structure Graph where
  adj : List (String × List String)

/-- First-match association lookup used to read the adjacency list. -/
def lookupAdj (s : String) : List (String × List String) → List String
  | [] => []
  | (k, v) :: rest => if k = s then v else lookupAdj s rest

/-- `ns.scan server`: the neighbor list of `s` in graph `g`. -/
def Graph.scan (g : Graph) (s : String) : List String :=
  lookupAdj s g.adj

/-- All hostnames mentioned by the graph (keys and neighbor entries). -/
def Graph.nodeList (g : Graph) : List String :=
  g.adj.foldr (fun p acc => p.1 :: p.2 ++ acc) []

/-- The node names as a finite set, used for termination measures. -/
def Graph.nodeFinset (g : Graph) : Finset String :=
  g.nodeList.toFinset

theorem lookupAdj_subset_nodeList (s t : String) :
    ∀ l : List (String × List String), t ∈ lookupAdj s l →
      t ∈ l.foldr (fun p acc => p.1 :: p.2 ++ acc) [] := by
  intro l
  induction l with
  | nil => intro h; simp [lookupAdj] at h
  | cons p rest ih =>
    intro h
    simp only [lookupAdj] at h
    by_cases hk : p.1 = s
    · simp [hk] at h
      simp [List.foldr]
      right; left; exact h
    · rw [if_neg hk] at h
      simp [List.foldr]
      right; right; exact ih h

theorem scan_subset_nodeFinset (g : Graph) (s t : String)
    (h : t ∈ g.scan s) : t ∈ g.nodeFinset := by
  have := lookupAdj_subset_nodeList s t g.adj h
  simp [Graph.nodeFinset, List.mem_toFinset, Graph.nodeList]
  exact this

/-! ### Hop distance from "home"

`Reach g t d` holds when some walk of length `d` leads from `"home"` to `t`
along `ns.scan` edges; `IsDist g t d` says `d` is the least such length,
i.e. the true shortest-path hop distance the spec speaks about. -/

inductive Reach (g : Graph) : String → Nat → Prop where
  | home : Reach g "home" 0
  | step {s t : String} {d : Nat} :
      Reach g s d → t ∈ g.scan s → Reach g t (d + 1)

def IsDist (g : Graph) (t : String) (d : Nat) : Prop :=
  Reach g t d ∧ ∀ d', d' < d → ¬ Reach g t d'

theorem isDist_unique {g : Graph} {t : String} {d d' : Nat}
    (h : IsDist g t d) (h' : IsDist g t d') : d = d' := by
  rcases lt_trichotomy d d' with hlt | heq | hgt
  · exact absurd h.1 (h'.2 d hlt)
  · exact heq
  · exact absurd h'.1 (h.2 d' hgt)

theorem reach_exists_isDist {g : Graph} {t : String} {d : Nat}
    (h : Reach g t d) : ∃ d₀, d₀ ≤ d ∧ IsDist g t d₀ := by
  induction d using Nat.strong_induction_on with
  | _ d ih =>
    by_cases hmin : ∀ d', d' < d → ¬ Reach g t d'
    · exact ⟨d, le_refl d, h, hmin⟩
    · push_neg at hmin
      obtain ⟨d', hd', hr⟩ := hmin
      obtain ⟨d₀, hle, hdist⟩ := ih d' hd' hr
      exact ⟨d₀, le_trans hle (le_of_lt hd'), hdist⟩

theorem isDist_home (g : Graph) : IsDist g "home" 0 :=
  ⟨Reach.home, fun d' hd' => absurd hd' (Nat.not_lt_zero d')⟩

theorem reach_zero {g : Graph} {t : String} (h : Reach g t 0) : t = "home" := by
  cases h; rfl

theorem isDist_zero_iff {g : Graph} {t : String} :
    IsDist g t 0 ↔ t = "home" := by
  constructor
  · intro h; exact reach_zero h.1
  · rintro rfl; exact isDist_home g

theorem reach_succ_inv {g : Graph} {t : String} {d : Nat}
    (h : Reach g t (d + 1)) : ∃ s, Reach g s d ∧ t ∈ g.scan s := by
  cases h with
  | step hs hmem => exact ⟨_, hs, hmem⟩

theorem isDist_succ_inv {g : Graph} {t : String} {d : Nat}
    (h : IsDist g t (d + 1)) : ∃ s, IsDist g s d ∧ t ∈ g.scan s := by
  obtain ⟨s, hs, hmem⟩ := reach_succ_inv h.1
  obtain ⟨d₀, hle, hdist⟩ := reach_exists_isDist hs
  rcases lt_or_eq_of_le hle with hlt | heq
  · exact absurd (Reach.step hdist.1 hmem) (h.2 (d₀ + 1) (by omega))
  · subst heq; exact ⟨s, hdist, hmem⟩

theorem isDist_succ_of_edge {g : Graph} {s t : String} {d : Nat}
    (hs : IsDist g s d) (hmem : t ∈ g.scan s)
    (hnot : ¬ ∃ d', d' ≤ d ∧ IsDist g t d') : IsDist g t (d + 1) := by
  refine ⟨Reach.step hs.1 hmem, ?_⟩
  intro d' hd' hr
  obtain ⟨d₀, hle, hdist⟩ := reach_exists_isDist hr
  exact hnot ⟨d₀, by omega, hdist⟩

theorem isDist_level_nonempty {g : Graph} {t : String} {d : Nat}
    (h : IsDist g t d) : ∀ m, m ≤ d → ∃ u, IsDist g u m := by
  induction d generalizing t with
  | zero =>
    intro m hm
    interval_cases m
    exact ⟨t, h⟩
  | succ d ih =>
    intro m hm
    rcases Nat.lt_or_ge m (d + 1) with hlt | hge
    · obtain ⟨s, hs, _⟩ := isDist_succ_inv h
      exact ih hs m (by omega)
    · have : m = d + 1 := by omega
      subst this
      exact ⟨t, h⟩

theorem reach_mem_nodeList {g : Graph} {t : String} {d : Nat}
    (h : Reach g t d) : t = "home" ∨ t ∈ g.nodeList := by
  cases h with
  | home => left; rfl
  | step hs hmem =>
    right
    have := scan_subset_nodeFinset g _ t hmem
    simpa [Graph.nodeFinset, List.mem_toFinset] using this

/-! ### The neighbor-expansion step shared by all BFS loops

Every traversal in the repository expands a dequeued node the same way:

    for (const neighbor of ns.scan(server)) {
        if (!visited.has(neighbor)) {
            visited.add(neighbor);
            queue.push({ server: neighbor, <payload> });
        }
    }

`scanNew f neigh V q` folds this loop: `f n` builds the payload enqueued
with a newly discovered neighbor `n` (a level `l+1`, or a path `p ++ [n]`). -/

def scanNew {α : Type} (f : String → α) :
    List String → Finset String → List (String × α) →
      Finset String × List (String × α)
  | [], V, q => (V, q)
  | n :: rest, V, q =>
      if n ∈ V then scanNew f rest V q
      else scanNew f rest (insert n V) (q ++ [(n, f n)])

theorem scanNew_measure {α : Type} (f : String → α) (S : Finset String) :
    ∀ (neigh : List String) (V : Finset String) (q : List (String × α)),
      (∀ n ∈ neigh, n ∈ S) →
      (S \ (scanNew f neigh V q).1).card + (scanNew f neigh V q).2.length
        = (S \ V).card + q.length := by
  intro neigh
  induction neigh with
  | nil => intro V q _; simp [scanNew]
  | cons n rest ih =>
    intro V q hS
    by_cases hv : n ∈ V
    · simp only [scanNew, if_pos hv]
      exact ih V q (fun m hm => hS m (List.mem_cons_of_mem n hm))
    · simp only [scanNew, if_neg hv]
      rw [ih (insert n V) (q ++ [(n, f n)])
        (fun m hm => hS m (List.mem_cons_of_mem n hm))]
      have hsd : S \ insert n V = (S \ V).erase n := by
        ext x
        simp only [Finset.mem_sdiff, Finset.mem_insert, Finset.mem_erase]
        tauto
      have hmem : n ∈ S \ V :=
        Finset.mem_sdiff.mpr ⟨hS n (List.mem_cons_self n rest), hv⟩
      have := Finset.card_erase_add_one hmem
      rw [hsd]
      simp only [List.length_append, List.length_cons, List.length_nil]
      omega

theorem scanNew_append {α : Type} (f : String → α) :
    ∀ (neigh : List String) (V : Finset String)
      (A B : List (String × α)),
      scanNew f neigh V (A ++ B)
        = ((scanNew f neigh V B).1, A ++ (scanNew f neigh V B).2) := by
  intro neigh
  induction neigh with
  | nil => intro V A B; simp [scanNew]
  | cons n rest ih =>
    intro V A B
    by_cases hv : n ∈ V
    · simp only [scanNew, if_pos hv]; exact ih V A B
    · simp only [scanNew, if_neg hv]
      rw [List.append_assoc A B [(n, f n)], ih (insert n V) A (B ++ [(n, f n)])]

theorem scanNew_mono {α : Type} (f : String → α) :
    ∀ (neigh : List String) (V : Finset String) (q : List (String × α)),
      V ⊆ (scanNew f neigh V q).1 := by
  intro neigh
  induction neigh with
  | nil => intro V q; simp [scanNew]
  | cons n rest ih =>
    intro V q
    by_cases hv : n ∈ V
    · simp only [scanNew, if_pos hv]; exact ih V q
    · simp only [scanNew, if_neg hv]
      exact Finset.Subset.trans (Finset.subset_insert n V)
        (ih (insert n V) (q ++ [(n, f n)]))

theorem scanNew_covers {α : Type} (f : String → α) :
    ∀ (neigh : List String) (V : Finset String) (q : List (String × α)),
      ∀ t ∈ neigh, t ∈ (scanNew f neigh V q).1 := by
  intro neigh
  induction neigh with
  | nil => intro V q t ht; simp at ht
  | cons n rest ih =>
    intro V q t ht
    rcases List.mem_cons.mp ht with rfl | hrest
    · by_cases hv : t ∈ V
      · simp only [scanNew, if_pos hv]
        exact scanNew_mono f rest V q hv
      · simp only [scanNew, if_neg hv]
        exact scanNew_mono f rest (insert t V) (q ++ [(t, f t)])
          (Finset.mem_insert_self t V)
    · by_cases hv : n ∈ V
      · simp only [scanNew, if_pos hv]; exact ih V q t hrest
      · simp only [scanNew, if_neg hv]
        exact ih (insert n V) (q ++ [(n, f n)]) t hrest

/-! ### Level-labelled bounded BFS

`bfsTraverse` is the worklist loop shared verbatim by
`deploy.js:getServersUpToLevel` and `serverinfo.js:getServersAtHops`:
queue entries carry the discovery level, a dequeued node is pushed onto the
result when `emit` accepts its level, and its neighbors are expanded while
the level is below `bound`.  The two source functions differ only in the
emission predicate and in the bound (`maxHop`, resp. `Math.max(...hops)`). -/

def bfsTraverse (g : Graph) (emit : Nat → Bool) (bound : Nat) :
    List (String × Nat) → Finset String → List String → List String
  | [], _, res => res
  | (s, l) :: rest, V, res =>
      if l < bound then
        bfsTraverse g emit bound
          (scanNew (fun _ => l + 1) (g.scan s) V rest).2
          (scanNew (fun _ => l + 1) (g.scan s) V rest).1
          (if emit l then res ++ [s] else res)
      else
        bfsTraverse g emit bound rest V (if emit l then res ++ [s] else res)
termination_by q V _ => (g.nodeFinset \ V).card + q.length
decreasing_by
  · have h := scanNew_measure (fun _ => l + 1) g.nodeFinset (g.scan s) V rest
      (fun n hn => scan_subset_nodeFinset g s n hn)
    simp only [List.length_cons]
    omega
  · simp only [List.length_cons]
    omega

theorem bfsTraverse_nil (g : Graph) (emit : Nat → Bool) (bound : Nat)
    (V : Finset String) (res : List String) :
    bfsTraverse g emit bound [] V res = res := by
  rw [bfsTraverse]

theorem bfsTraverse_cons_expand (g : Graph) (emit : Nat → Bool) (bound : Nat)
    (s : String) (l : Nat) (rest : List (String × Nat)) (V : Finset String)
    (res : List String) (h : l < bound) :
    bfsTraverse g emit bound ((s, l) :: rest) V res
      = bfsTraverse g emit bound
          (scanNew (fun _ => l + 1) (g.scan s) V rest).2
          (scanNew (fun _ => l + 1) (g.scan s) V rest).1
          (if emit l then res ++ [s] else res) := by
  rw [bfsTraverse]
  simp [h]

theorem bfsTraverse_cons_stop (g : Graph) (emit : Nat → Bool) (bound : Nat)
    (s : String) (l : Nat) (rest : List (String × Nat)) (V : Finset String)
    (res : List String) (h : ¬ l < bound) :
    bfsTraverse g emit bound ((s, l) :: rest) V res
      = bfsTraverse g emit bound rest V (if emit l then res ++ [s] else res) := by
  rw [bfsTraverse]
  simp [h]

/-- `deploy.js` / `getServersUpToLevel`: BFS from `"home"` that collects the
servers whose discovery level `l` satisfies `0 < l ∧ l ≤ maxHop`, expanding
only below `maxHop`. -/
def getServersUpToLevel (g : Graph) (maxHop : Nat) : List String :=
  bfsTraverse g (fun l => decide (0 < l ∧ l ≤ maxHop)) maxHop
    [("home", 0)] {"home"} []

/-- `Math.max(...targetHops)` for a `Nat` hop list (`0` when empty, which
makes the expansion guard `level < max` fail exactly as the JS `-Infinity`
comparison does). -/
def maxOf (l : List Nat) : Nat := l.foldr max 0

theorem le_maxOf {a : Nat} : ∀ {l : List Nat}, a ∈ l → a ≤ maxOf l := by
  intro l
  induction l with
  | nil => intro h; simp at h
  | cons b rest ih =>
    intro h
    rcases List.mem_cons.mp h with rfl | hrest
    · exact le_max_left _ _
    · exact le_trans (ih hrest) (le_max_right _ _)

/-- `serverinfo.js` / `getServersAtHops`: BFS from `"home"` that collects the
servers whose discovery level is in `targetHops`, expanding while the level
is below `Math.max(...targetHops)`. -/
def getServersAtHops (g : Graph) (targetHops : List Nat) : List String :=
  bfsTraverse g (fun l => decide (l ∈ targetHops)) (maxOf targetHops)
    [("home", 0)] {"home"} []

/-! ### Layer-by-layer view of the level BFS

`discover V N neigh` is `scanNew` with the payload erased: it threads the
visited set and the list of names newly discovered in the current layer.
`layerStep` runs it over a whole frontier.  The drain lemmas below replay
the worklist loop one full layer at a time, which is what makes the
standard BFS invariants (`every queue entry carries its true distance`,
`visited = everything within the current depth`) provable by induction. -/

def discover : Finset String → List String → List String →
    Finset String × List String
  | V, N, [] => (V, N)
  | V, N, n :: rest =>
      if n ∈ V then discover V N rest
      else discover (insert n V) (N ++ [n]) rest

theorem scanNew_discover (m : Nat) :
    ∀ (neigh : List String) (V : Finset String) (N : List String)
      (q : List (String × Nat)),
      scanNew (fun _ => m) neigh V (q ++ N.map (fun s => (s, m)))
        = ((discover V N neigh).1,
            q ++ ((discover V N neigh).2).map (fun s => (s, m))) := by
  intro neigh
  induction neigh with
  | nil => intro V N q; simp [scanNew, discover]
  | cons n rest ih =>
    intro V N q
    by_cases hv : n ∈ V
    · simp only [scanNew, discover, if_pos hv]
      exact ih V N q
    · simp only [scanNew, discover, if_neg hv]
      have : (q ++ N.map (fun s => (s, m))) ++ [(n, m)]
          = q ++ (N ++ [n]).map (fun s => (s, m)) := by
        simp [List.map_append]
      rw [this]
      exact ih (insert n V) (N ++ [n]) q

theorem discover_sub :
    ∀ (neigh : List String) (V : Finset String) (N : List String),
      ∀ x ∈ N, x ∈ (discover V N neigh).2 := by
  intro neigh
  induction neigh with
  | nil => intro V N x hx; simpa [discover] using hx
  | cons n rest ih =>
    intro V N x hx
    by_cases hv : n ∈ V
    · simp only [discover, if_pos hv]; exact ih V N x hx
    · simp only [discover, if_neg hv]
      exact ih (insert n V) (N ++ [n]) x (List.mem_append_left _ hx)

theorem discover_mem :
    ∀ (neigh : List String) (V : Finset String) (N : List String),
      ∀ x ∈ (discover V N neigh).2, x ∈ N ∨ (x ∈ neigh ∧ x ∉ V) := by
  intro neigh
  induction neigh with
  | nil => intro V N x hx; left; simpa [discover] using hx
  | cons n rest ih =>
    intro V N x hx
    by_cases hv : n ∈ V
    · simp only [discover, if_pos hv] at hx
      rcases ih V N x hx with h | ⟨h1, h2⟩
      · left; exact h
      · right; exact ⟨List.mem_cons_of_mem n h1, h2⟩
    · simp only [discover, if_neg hv] at hx
      rcases ih (insert n V) (N ++ [n]) x hx with h | ⟨h1, h2⟩
      · rcases List.mem_append.mp h with h' | h'
        · left; exact h'
        · right
          simp at h'
          subst h'
          exact ⟨List.mem_cons_self x rest, hv⟩
      · right
        refine ⟨List.mem_cons_of_mem n h1, fun hc => h2 ?_⟩
        exact Finset.mem_insert_of_mem hc

theorem discover_nodup :
    ∀ (neigh : List String) (V : Finset String) (N : List String),
      N.Nodup → (∀ x ∈ N, x ∈ V) → (discover V N neigh).2.Nodup := by
  intro neigh
  induction neigh with
  | nil => intro V N hnd _; simpa [discover] using hnd
  | cons n rest ih =>
    intro V N hnd hNV
    by_cases hv : n ∈ V
    · simp only [discover, if_pos hv]; exact ih V N hnd hNV
    · simp only [discover, if_neg hv]
      refine ih (insert n V) (N ++ [n]) ?_ ?_
      · refine List.Nodup.append hnd (List.nodup_singleton n) ?_
        intro x hx hx'
        simp at hx'
        subst hx'
        exact hv (hNV x hx)
      · intro x hx
        rcases List.mem_append.mp hx with h | h
        · exact Finset.mem_insert_of_mem (hNV x h)
        · simp at h; subst h; exact Finset.mem_insert_self x V

theorem discover_iff (Q : String → Prop) :
    ∀ (neigh : List String) (V : Finset String) (N : List String),
      (∀ x, x ∈ V ↔ (Q x ∨ x ∈ N)) →
      ∀ x, x ∈ (discover V N neigh).1 ↔ (Q x ∨ x ∈ (discover V N neigh).2) := by
  intro neigh
  induction neigh with
  | nil => intro V N hV x; simpa [discover] using hV x
  | cons n rest ih =>
    intro V N hV x
    by_cases hv : n ∈ V
    · simp only [discover, if_pos hv]; exact ih V N hV x
    · simp only [discover, if_neg hv]
      refine ih (insert n V) (N ++ [n]) ?_ x
      intro y
      constructor
      · intro hy
        rcases Finset.mem_insert.mp hy with rfl | hy'
        · right; exact List.mem_append_right _ (List.mem_singleton_self y)
        · rcases (hV y).mp hy' with h | h
          · left; exact h
          · right; exact List.mem_append_left _ h
      · intro hy
        rcases hy with h | h
        · exact Finset.mem_insert_of_mem ((hV y).mpr (Or.inl h))
        · rcases List.mem_append.mp h with h' | h'
          · exact Finset.mem_insert_of_mem ((hV y).mpr (Or.inr h'))
          · simp at h'; subst h'; exact Finset.mem_insert_self y V

theorem discover_monoV :
    ∀ (neigh : List String) (V : Finset String) (N : List String),
      V ⊆ (discover V N neigh).1 := by
  intro neigh
  induction neigh with
  | nil => intro V N; simp [discover]
  | cons n rest ih =>
    intro V N
    by_cases hv : n ∈ V
    · simp only [discover, if_pos hv]; exact ih V N
    · simp only [discover, if_neg hv]
      exact Finset.Subset.trans (Finset.subset_insert n V)
        (ih (insert n V) (N ++ [n]))

theorem discover_coversAll :
    ∀ (neigh : List String) (V : Finset String) (N : List String),
      ∀ t ∈ neigh, t ∈ (discover V N neigh).1 := by
  intro neigh
  induction neigh with
  | nil => intro V N t ht; simp at ht
  | cons n rest ih =>
    intro V N t ht
    rcases List.mem_cons.mp ht with rfl | hrest
    · by_cases hv : t ∈ V
      · simp only [discover, if_pos hv]
        exact discover_monoV rest V N hv
      · simp only [discover, if_neg hv]
        exact discover_monoV rest (insert t V) (N ++ [t])
          (Finset.mem_insert_self t V)
    · by_cases hv : n ∈ V
      · simp only [discover, if_pos hv]; exact ih V N t hrest
      · simp only [discover, if_neg hv]
        exact ih (insert n V) (N ++ [n]) t hrest

def layerStep (g : Graph) : List String → Finset String → List String →
    Finset String × List String
  | [], V, N => (V, N)
  | s :: F, V, N =>
      layerStep g F (discover V N (g.scan s)).1 (discover V N (g.scan s)).2

theorem bfs_drain_layer (g : Graph) (emit : Nat → Bool) (bound ℓ : Nat)
    (hlt : ℓ < bound) :
    ∀ (F N : List String) (V : Finset String) (res : List String),
      bfsTraverse g emit bound
          (F.map (fun s => (s, ℓ)) ++ N.map (fun s => (s, ℓ + 1))) V res
        = bfsTraverse g emit bound
            ((layerStep g F V N).2.map (fun s => (s, ℓ + 1)))
            (layerStep g F V N).1
            (if emit ℓ then res ++ F else res) := by
  intro F
  induction F with
  | nil =>
    intro N V res
    simp only [List.map_nil, List.nil_append, layerStep]
    cases hemit : emit ℓ <;> simp
  | cons s F' ih =>
    intro N V res
    simp only [List.map_cons, List.cons_append]
    rw [bfsTraverse_cons_expand g emit bound s ℓ _ V res hlt]
    rw [scanNew_discover (ℓ + 1) (g.scan s) V N (F'.map (fun x => (x, ℓ)))]
    rw [ih (discover V N (g.scan s)).2 (discover V N (g.scan s)).1
      (if emit ℓ then res ++ [s] else res)]
    have hstep : layerStep g (s :: F') V N
        = layerStep g F' (discover V N (g.scan s)).1 (discover V N (g.scan s)).2 := by
      simp [layerStep]
    rw [hstep]
    cases hemit : emit ℓ <;> simp

theorem bfs_drain_stop (g : Graph) (emit : Nat → Bool) (bound ℓ : Nat)
    (hge : ¬ ℓ < bound) :
    ∀ (F : List String) (V : Finset String) (res : List String),
      bfsTraverse g emit bound (F.map (fun s => (s, ℓ))) V res
        = if emit ℓ then res ++ F else res := by
  intro F
  induction F with
  | nil =>
    intro V res
    cases hemit : emit ℓ <;> simp [bfsTraverse_nil]
  | cons s F' ih =>
    intro V res
    simp only [List.map_cons]
    rw [bfsTraverse_cons_stop g emit bound s ℓ _ V res hge, ih]
    cases hemit : emit ℓ <;> simp

theorem layerStep_spec (g : Graph) (ℓ : Nat) :
    ∀ (F : List String) (V : Finset String) (N : List String),
      (∀ s ∈ F, IsDist g s ℓ) →
      (∀ s ∈ N, IsDist g s (ℓ + 1)) →
      N.Nodup →
      (∀ x, x ∈ V ↔ ((∃ d, d ≤ ℓ ∧ IsDist g x d) ∨ x ∈ N)) →
      (∀ t, IsDist g t (ℓ + 1) → t ∈ N ∨ ∃ s ∈ F, t ∈ g.scan s) →
      (∀ s ∈ (layerStep g F V N).2, IsDist g s (ℓ + 1)) ∧
      (layerStep g F V N).2.Nodup ∧
      (∀ t, IsDist g t (ℓ + 1) → t ∈ (layerStep g F V N).2) ∧
      (∀ x, x ∈ (layerStep g F V N).1 ↔
        ((∃ d, d ≤ ℓ ∧ IsDist g x d) ∨ x ∈ (layerStep g F V N).2)) := by
  intro F
  induction F with
  | nil =>
    intro V N hF hN hNnd hV hcover
    refine ⟨hN, hNnd, ?_, hV⟩
    intro t ht
    rcases hcover t ht with h | ⟨s, hs, _⟩
    · exact h
    · simp at hs
  | cons s F' ih =>
    intro V N hF hN hNnd hV hcover
    have hsF : IsDist g s ℓ := hF s (List.mem_cons_self s F')
    have hstep : layerStep g (s :: F') V N
        = layerStep g F' (discover V N (g.scan s)).1 (discover V N (g.scan s)).2 := by
      simp [layerStep]
    rw [hstep]
    have hNV : ∀ x ∈ N, x ∈ V := fun x hx => (hV x).mpr (Or.inr hx)
    have hN' : ∀ x ∈ (discover V N (g.scan s)).2, IsDist g x (ℓ + 1) := by
      intro x hx
      rcases discover_mem (g.scan s) V N x hx with h | ⟨h1, h2⟩
      · exact hN x h
      · refine isDist_succ_of_edge hsF h1 ?_
        rintro ⟨d, hd, hdist⟩
        exact h2 ((hV x).mpr (Or.inl ⟨d, hd, hdist⟩))
    have hV' : ∀ x, x ∈ (discover V N (g.scan s)).1 ↔
        ((∃ d, d ≤ ℓ ∧ IsDist g x d) ∨ x ∈ (discover V N (g.scan s)).2) :=
      discover_iff (fun x => ∃ d, d ≤ ℓ ∧ IsDist g x d) (g.scan s) V N hV
    refine ih (discover V N (g.scan s)).1 (discover V N (g.scan s)).2
      (fun x hx => hF x (List.mem_cons_of_mem s hx)) hN'
      (discover_nodup (g.scan s) V N hNnd hNV) hV' ?_
    intro t ht
    rcases hcover t ht with h | ⟨s', hs', hmem⟩
    · exact Or.inl (discover_sub (g.scan s) V N t h)
    · rcases List.mem_cons.mp hs' with rfl | hs''
      · left
        have htV : t ∈ (discover V N (g.scan s')).1 :=
          discover_coversAll (g.scan s') V N t hmem
        rcases (hV' t).mp htV with ⟨d, hd, hdist⟩ | h
        · have := isDist_unique hdist ht
          omega
        · exact h
      · exact Or.inr ⟨s', hs'', hmem⟩

theorem bfs_layers (g : Graph) (emit : Nat → Bool) (bound : Nat) :
    ∀ (k ℓ : Nat) (F : List String) (V : Finset String) (res : List String),
      ℓ + k = bound →
      F.Nodup →
      (∀ s, s ∈ F ↔ IsDist g s ℓ) →
      (∀ x, x ∈ V ↔ ∃ d, d ≤ ℓ ∧ IsDist g x d) →
      ∃ tail,
        bfsTraverse g emit bound (F.map (fun s => (s, ℓ))) V res = res ++ tail
        ∧ tail.Nodup
        ∧ (∀ x, x ∈ tail ↔
            ∃ d, ℓ ≤ d ∧ d ≤ bound ∧ IsDist g x d ∧ emit d = true) := by
  intro k
  induction k with
  | zero =>
    intro ℓ F V res hk hFnd hF hV
    have hℓ : ℓ = bound := by omega
    subst hℓ
    rw [bfs_drain_stop g emit ℓ ℓ (lt_irrefl ℓ) F V res]
    refine ⟨if emit ℓ then F else [], ?_, ?_, ?_⟩
    · cases hemit : emit ℓ <;> simp
    · cases hemit : emit ℓ <;> simp [hFnd]
    · intro x
      cases hemit : emit ℓ with
      | true =>
        simp only [if_pos rfl]
        constructor
        · intro hx
          exact ⟨ℓ, le_refl ℓ, le_refl ℓ, (hF x).mp hx, hemit⟩
        · rintro ⟨d, hld, hdb, hdist, _⟩
          have : d = ℓ := by omega
          subst this
          exact (hF x).mpr hdist
      | false =>
        constructor
        · intro hx
          simp at hx
        · rintro ⟨d, hld, hdb, hdist, hemit'⟩
          have hdl : d = ℓ := by omega
          subst hdl
          rw [hemit] at hemit'
          exact absurd hemit' (by simp)
  | succ k ih =>
    intro ℓ F V res hk hFnd hF hV
    have hlt : ℓ < bound := by omega
    have hqueue : F.map (fun s => (s, ℓ))
        = F.map (fun s => (s, ℓ)) ++ ([] : List String).map (fun s => (s, ℓ + 1)) := by
      simp
    rw [hqueue, bfs_drain_layer g emit bound ℓ hlt F [] V res]
    have hspec := layerStep_spec g ℓ F V []
      (fun s hs => (hF s).mp hs)
      (by intro s hs; simp at hs)
      (List.nodup_nil)
      (by intro x; rw [hV x]; simp)
      (by
        intro t ht
        obtain ⟨s, hs, hmem⟩ := isDist_succ_inv ht
        exact Or.inr ⟨s, (hF s).mpr hs, hmem⟩)
    obtain ⟨hP2dist, hP2nd, hP2cover, hP1⟩ := hspec
    have hF' : ∀ x, x ∈ (layerStep g F V []).2 ↔ IsDist g x (ℓ + 1) :=
      fun x => ⟨fun hx => hP2dist x hx, fun hx => hP2cover x hx⟩
    have hV' : ∀ x, x ∈ (layerStep g F V []).1 ↔ ∃ d, d ≤ ℓ + 1 ∧ IsDist g x d := by
      intro x
      rw [hP1 x]
      constructor
      · rintro (⟨d, hd, hdist⟩ | hx)
        · exact ⟨d, by omega, hdist⟩
        · exact ⟨ℓ + 1, le_refl _, (hF' x).mp hx⟩
      · rintro ⟨d, hd, hdist⟩
        rcases Nat.lt_or_ge d (ℓ + 1) with hlt' | hge'
        · exact Or.inl ⟨d, by omega, hdist⟩
        · have : d = ℓ + 1 := by omega
          subst this
          exact Or.inr ((hF' x).mpr hdist)
    obtain ⟨tail', heq, hnd', hmem'⟩ :=
      ih (ℓ + 1) (layerStep g F V []).2 (layerStep g F V []).1
        (if emit ℓ then res ++ F else res) (by omega) hP2nd hF' hV'
    refine ⟨(if emit ℓ then F else []) ++ tail', ?_, ?_, ?_⟩
    · rw [heq]
      cases hemit : emit ℓ <;> simp
    · refine List.Nodup.append ?_ hnd' ?_
      · cases hemit : emit ℓ <;> simp [hFnd]
      · intro x hx hx'
        have hxF : x ∈ F := by
          by_cases hemit : emit ℓ = true
          · rw [hemit] at hx
            simpa using hx
          · rw [Bool.not_eq_true] at hemit
            rw [hemit] at hx
            simp at hx
        have h1 : IsDist g x ℓ := (hF x).mp hxF
        obtain ⟨d, hld, _, hdist, _⟩ := (hmem' x).mp hx'
        have := isDist_unique h1 hdist
        omega
    · intro x
      simp only [List.mem_append]
      constructor
      · rintro (hx | hx)
        · have hem : emit ℓ = true := by
            by_contra hfalse
            rw [Bool.not_eq_true] at hfalse
            rw [hfalse] at hx
            simp at hx
          rw [hem] at hx
          simp at hx
          exact ⟨ℓ, le_refl ℓ, by omega, (hF x).mp hx, hem⟩
        · obtain ⟨d, hld, hdb, hdist, hemit'⟩ := (hmem' x).mp hx
          exact ⟨d, by omega, hdb, hdist, hemit'⟩
      · rintro ⟨d, hld, hdb, hdist, hemit'⟩
        rcases Nat.eq_or_lt_of_le hld with heqd | hltd
        · left
          rw [← heqd] at hdist hemit'
          rw [hemit']
          simp
          exact (hF x).mpr hdist
        · right
          exact (hmem' x).mpr ⟨d, by omega, hdb, hdist, hemit'⟩

theorem bfsTraverse_spec (g : Graph) (emit : Nat → Bool) (bound : Nat) :
    (∀ x, x ∈ bfsTraverse g emit bound [("home", 0)] {"home"} []
        ↔ ∃ d, d ≤ bound ∧ IsDist g x d ∧ emit d = true)
    ∧ (bfsTraverse g emit bound [("home", 0)] {"home"} []).Nodup := by
  have hqueue : ([("home", 0)] : List (String × Nat))
      = (["home"] : List String).map (fun s => (s, 0)) := by simp
  obtain ⟨tail, heq, hnd, hmem⟩ := bfs_layers g emit bound bound 0 ["home"]
    {"home"} [] (by omega) (List.nodup_singleton _)
    (by
      intro s
      simp only [List.mem_singleton]
      constructor
      · rintro rfl; exact isDist_home g
      · intro h; exact isDist_zero_iff.mp h)
    (by
      intro x
      simp only [Finset.mem_singleton]
      constructor
      · rintro rfl; exact ⟨0, le_refl 0, isDist_home g⟩
      · rintro ⟨d, hd, hdist⟩
        interval_cases d
        exact isDist_zero_iff.mp hdist)
  rw [hqueue, heq]
  simp only [List.nil_append]
  refine ⟨?_, hnd⟩
  intro x
  rw [hmem x]
  constructor
  · rintro ⟨d, _, hdb, hdist, hemit⟩; exact ⟨d, hdb, hdist, hemit⟩
  · rintro ⟨d, hdb, hdist, hemit⟩; exact ⟨d, Nat.zero_le d, hdb, hdist, hemit⟩

theorem getServersUpToLevel_mem (g : Graph) (maxHop : Nat) (s : String) :
    s ∈ getServersUpToLevel g maxHop
      ↔ ∃ d, IsDist g s d ∧ 1 ≤ d ∧ d ≤ maxHop := by
  rw [getServersUpToLevel, (bfsTraverse_spec g _ maxHop).1 s]
  constructor
  · rintro ⟨d, hdb, hdist, hemit⟩
    rw [decide_eq_true_iff] at hemit
    exact ⟨d, hdist, hemit.1, hemit.2⟩
  · rintro ⟨d, hdist, h1, h2⟩
    exact ⟨d, h2, hdist, by rw [decide_eq_true_iff]; exact ⟨h1, h2⟩⟩

theorem getServersAtHops_mem (g : Graph) (hops : List Nat) (s : String) :
    s ∈ getServersAtHops g hops ↔ ∃ d, IsDist g s d ∧ d ∈ hops := by
  rw [getServersAtHops, (bfsTraverse_spec g _ (maxOf hops)).1 s]
  constructor
  · rintro ⟨d, _, hdist, hemit⟩
    rw [decide_eq_true_iff] at hemit
    exact ⟨d, hdist, hemit⟩
  · rintro ⟨d, hdist, hmem⟩
    exact ⟨d, le_maxOf hmem, hdist, by rw [decide_eq_true_iff]; exact hmem⟩

/-- C1: for every finite graph and every `maxHop ≥ 1`, the bounded BFS
traversals emit exactly the nodes whose true shortest-path hop distance from
`"home"` lies in the requested range (`1 .. maxHop` for
`getServersUpToLevel`, the requested hop set for `getServersAtHops`); the
origin `"home"` is emitted only when depth `0` is explicitly requested, each
node is selected at its true shortest-path distance, and each emitted node
appears at most once. -/
theorem traversal_emits_exact_hop_range (g : Graph) (maxHop : Nat)
    (hops : List Nat) (hmax : 1 ≤ maxHop) :
    (∀ s, s ∈ getServersUpToLevel g maxHop
        ↔ ∃ d, IsDist g s d ∧ 1 ≤ d ∧ d ≤ maxHop) ∧
    (getServersUpToLevel g maxHop).Nodup ∧
    "home" ∉ getServersUpToLevel g maxHop ∧
    (∀ s, s ∈ getServersAtHops g hops ↔ ∃ d, IsDist g s d ∧ d ∈ hops) ∧
    (getServersAtHops g hops).Nodup ∧
    (0 ∉ hops → "home" ∉ getServersAtHops g hops) ∧
    (0 ∈ hops → "home" ∈ getServersAtHops g hops) := by
  refine ⟨getServersUpToLevel_mem g maxHop, ?_, ?_,
    getServersAtHops_mem g hops, ?_, ?_, ?_⟩
  · exact (bfsTraverse_spec g _ maxHop).2
  · intro hmem
    obtain ⟨d, hdist, h1, _⟩ := (getServersUpToLevel_mem g maxHop "home").mp hmem
    have := isDist_unique hdist (isDist_home g)
    omega
  · exact (bfsTraverse_spec g _ (maxOf hops)).2
  · intro h0 hmem
    obtain ⟨d, hdist, hd⟩ := (getServersAtHops_mem g hops "home").mp hmem
    have := isDist_unique hdist (isDist_home g)
    subst this
    exact h0 hd
  · intro h0
    exact (getServersAtHops_mem g hops "home").mpr ⟨0, isDist_home g, h0⟩

/-- A tiny concrete network used to instantiate the traversal theorems:
`home — a — b`, with the back edges `ns.scan` reports in the game. -/
def gEx : Graph := ⟨[("home", ["a"]), ("a", ["home", "b"]), ("b", ["a"])]⟩

/-- Witness for C1: the traversal characterization instantiated at the
concrete graph `gEx`, `maxHop = 1` and hop set `[1]`. -/
theorem traversal_emits_exact_hop_range_witness :
    (∀ s, s ∈ getServersUpToLevel gEx 1
        ↔ ∃ d, IsDist gEx s d ∧ 1 ≤ d ∧ d ≤ 1) ∧
    (getServersUpToLevel gEx 1).Nodup ∧
    "home" ∉ getServersUpToLevel gEx 1 ∧
    (∀ s, s ∈ getServersAtHops gEx [1] ↔ ∃ d, IsDist gEx s d ∧ d ∈ [1]) ∧
    (getServersAtHops gEx [1]).Nodup ∧
    (0 ∉ [1] → "home" ∉ getServersAtHops gEx [1]) ∧
    (0 ∈ [1] → "home" ∈ getServersAtHops gEx [1]) :=
  traversal_emits_exact_hop_range gEx 1 [1] (by decide)

/-! ### Path reconstruction (`serverinfo.js:getPathToServer`)

The queue entries carry the whole path accumulated so far
(`path: [...path, neighbor]` in the source); the first time the target is
dequeued its carried path is returned, and an exhausted queue yields `[]`
("not found").  There is no hop bound: expansion always happens. -/

def bfsPath (g : Graph) (target : String) :
    List (String × List String) → Finset String → List String
  | [], _ => []
  | (s, path) :: rest, V =>
      if s = target then path
      else
        bfsPath g target
          (scanNew (fun n => path ++ [n]) (g.scan s) V rest).2
          (scanNew (fun n => path ++ [n]) (g.scan s) V rest).1
termination_by q V => (g.nodeFinset \ V).card + q.length
decreasing_by
  · have h := scanNew_measure (fun n => path ++ [n]) g.nodeFinset (g.scan s) V
      rest (fun n hn => scan_subset_nodeFinset g s n hn)
    simp only [List.length_cons]
    omega

def getPathToServer (g : Graph) (target : String) : List String :=
  bfsPath g target [("home", ["home"])] {"home"}

theorem bfsPath_nil (g : Graph) (target : String) (V : Finset String) :
    bfsPath g target [] V = [] := by
  rw [bfsPath]

theorem bfsPath_cons_hit (g : Graph) (target : String) (p : List String)
    (rest : List (String × List String)) (V : Finset String) :
    bfsPath g target ((target, p) :: rest) V = p := by
  rw [bfsPath]
  simp

theorem bfsPath_cons_miss (g : Graph) (target s : String) (p : List String)
    (rest : List (String × List String)) (V : Finset String)
    (h : s ≠ target) :
    bfsPath g target ((s, p) :: rest) V
      = bfsPath g target
          (scanNew (fun n => p ++ [n]) (g.scan s) V rest).2
          (scanNew (fun n => p ++ [n]) (g.scan s) V rest).1 := by
  rw [bfsPath]
  simp [h]

theorem bfsPath_hit (g : Graph) (target : String) :
    ∀ (A : List (String × List String)) (B : List (String × List String))
      (V : Finset String) (p : List String),
      (∀ e ∈ A, e.1 ≠ target) →
      bfsPath g target (A ++ (target, p) :: B) V = p := by
  intro A
  induction A with
  | nil =>
    intro B V p _
    simpa using bfsPath_cons_hit g target p B V
  | cons e A' ih =>
    intro B V p hA
    obtain ⟨s, q⟩ := e
    have hs : s ≠ target := hA (s, q) (List.mem_cons_self _ _)
    rw [List.cons_append, bfsPath_cons_miss g target s q _ V hs]
    have hsplit : A' ++ (target, p) :: B = (A' ++ (target, p) :: B) ++ [] := by
      simp
    rw [hsplit, scanNew_append]
    have : (A' ++ (target, p) :: B)
        ++ (scanNew (fun n => q ++ [n]) (g.scan s) V []).2
        = A' ++ (target, p)
            :: (B ++ (scanNew (fun n => q ++ [n]) (g.scan s) V []).2) := by
      simp
    rw [this]
    exact ih _ _ p (fun e' he' => hA e' (List.mem_cons_of_mem _ he'))

def layerStepP (g : Graph) :
    List (String × List String) → Finset String → List (String × List String) →
      Finset String × List (String × List String)
  | [], V, N => (V, N)
  | (s, p) :: F, V, N =>
      layerStepP g F (scanNew (fun n => p ++ [n]) (g.scan s) V N).1
        (scanNew (fun n => p ++ [n]) (g.scan s) V N).2

theorem layerStepP_monoV (g : Graph) :
    ∀ (F : List (String × List String)) (V : Finset String)
      (N : List (String × List String)),
      V ⊆ (layerStepP g F V N).1 := by
  intro F
  induction F with
  | nil => intro V N; simp [layerStepP]
  | cons e F' ih =>
    intro V N
    obtain ⟨s, p⟩ := e
    simp only [layerStepP]
    exact Finset.Subset.trans (scanNew_mono _ (g.scan s) V N) (ih _ _)

theorem bfsPath_drain (g : Graph) (target : String) :
    ∀ (F N : List (String × List String)) (V : Finset String),
      (∀ e ∈ F, e.1 ≠ target) →
      bfsPath g target (F ++ N) V
        = bfsPath g target (layerStepP g F V N).2 (layerStepP g F V N).1 := by
  intro F
  induction F with
  | nil => intro N V _; simp [layerStepP]
  | cons e F' ih =>
    intro N V hF
    obtain ⟨s, p⟩ := e
    have hs : s ≠ target := hF (s, p) (List.mem_cons_self _ _)
    rw [List.cons_append, bfsPath_cons_miss g target s p _ V hs,
      scanNew_append]
    simp only [layerStepP]
    exact ih _ _ (fun e' he' => hF e' (List.mem_cons_of_mem _ he'))

theorem scanNew_names {α : Type} (f : String → α) :
    ∀ (neigh : List String) (V : Finset String) (N : List (String × α)),
      (scanNew f neigh V N).1 = (discover V (N.map Prod.fst) neigh).1 ∧
      (scanNew f neigh V N).2.map Prod.fst
        = (discover V (N.map Prod.fst) neigh).2 := by
  intro neigh
  induction neigh with
  | nil => intro V N; simp [scanNew, discover]
  | cons n rest ih =>
    intro V N
    by_cases hv : n ∈ V
    · simp only [scanNew, discover, if_pos hv]
      exact ih V N
    · simp only [scanNew, discover, if_neg hv]
      have := ih (insert n V) (N ++ [(n, f n)])
      simpa using this

theorem scanNew_entries {α : Type} (f : String → α) :
    ∀ (neigh : List String) (V : Finset String) (N : List (String × α)),
      ∀ e ∈ (scanNew f neigh V N).2,
        e ∈ N ∨ (e.2 = f e.1 ∧ e.1 ∈ neigh ∧ e.1 ∉ V) := by
  intro neigh
  induction neigh with
  | nil => intro V N e he; left; simpa [scanNew] using he
  | cons n rest ih =>
    intro V N e he
    by_cases hv : n ∈ V
    · simp only [scanNew, if_pos hv] at he
      rcases ih V N e he with h | ⟨h1, h2, h3⟩
      · left; exact h
      · right; exact ⟨h1, List.mem_cons_of_mem n h2, h3⟩
    · simp only [scanNew, if_neg hv] at he
      rcases ih (insert n V) (N ++ [(n, f n)]) e he with h | ⟨h1, h2, h3⟩
      · rcases List.mem_append.mp h with h' | h'
        · left; exact h'
        · right
          simp at h'
          subst h'
          exact ⟨rfl, by simp [hv], hv⟩
      · right
        refine ⟨h1, List.mem_cons_of_mem n h2, fun hc => h3 ?_⟩
        exact Finset.mem_insert_of_mem hc

/-- The invariant each queue entry of the path BFS satisfies at layer `ℓ`:
the carried path starts at `"home"`, ends at the entry's server, and has
length `ℓ + 1`. -/
def PathSpec (s : String) (ℓ : Nat) (p : List String) : Prop :=
  p.head? = some "home" ∧ p.getLast? = some s ∧ p.length = ℓ + 1

theorem pathSpec_extend {s t : String} {ℓ : Nat} {p : List String}
    (h : PathSpec s ℓ p) : PathSpec t (ℓ + 1) (p ++ [t]) := by
  obtain ⟨hh, _, hl⟩ := h
  refine ⟨?_, ?_, ?_⟩
  · cases p with
    | nil => simp at hl
    | cons a q => simpa using hh
  · simp
  · simp [hl]

theorem layerStepP_spec (g : Graph) (ℓ : Nat) :
    ∀ (F : List (String × List String)) (V : Finset String)
      (N : List (String × List String)),
      (∀ e ∈ F, PathSpec e.1 ℓ e.2) →
      (∀ e ∈ F, IsDist g e.1 ℓ) →
      (∀ e ∈ N, IsDist g e.1 (ℓ + 1) ∧ PathSpec e.1 (ℓ + 1) e.2) →
      (N.map Prod.fst).Nodup →
      (∀ x, x ∈ V ↔ ((∃ d, d ≤ ℓ ∧ IsDist g x d) ∨ x ∈ N.map Prod.fst)) →
      (∀ t, IsDist g t (ℓ + 1) →
        t ∈ N.map Prod.fst ∨ ∃ s ∈ F.map Prod.fst, t ∈ g.scan s) →
      (∀ e ∈ (layerStepP g F V N).2,
          IsDist g e.1 (ℓ + 1) ∧ PathSpec e.1 (ℓ + 1) e.2) ∧
      ((layerStepP g F V N).2.map Prod.fst).Nodup ∧
      (∀ t, IsDist g t (ℓ + 1) → t ∈ (layerStepP g F V N).2.map Prod.fst) ∧
      (∀ x, x ∈ (layerStepP g F V N).1 ↔
        ((∃ d, d ≤ ℓ ∧ IsDist g x d) ∨ x ∈ (layerStepP g F V N).2.map Prod.fst)) := by
  intro F
  induction F with
  | nil =>
    intro V N h1 h2 h4 h5 h6 h7
    refine ⟨h4, h5, ?_, h6⟩
    intro t ht
    rcases h7 t ht with h | ⟨s, hs, _⟩
    · exact h
    · simp at hs
  | cons e F' ih =>
    intro V N h1 h2 h4 h5 h6 h7
    obtain ⟨s, p⟩ := e
    have hsF : IsDist g s ℓ := h2 (s, p) (List.mem_cons_self _ _)
    have hsP : PathSpec s ℓ p := h1 (s, p) (List.mem_cons_self _ _)
    have hnames := scanNew_names (fun n => p ++ [n]) (g.scan s) V N
    have hNV : ∀ x ∈ N.map Prod.fst, x ∈ V :=
      fun x hx => (h6 x).mpr (Or.inr hx)
    have hstep : layerStepP g ((s, p) :: F') V N
        = layerStepP g F' (scanNew (fun n => p ++ [n]) (g.scan s) V N).1
            (scanNew (fun n => p ++ [n]) (g.scan s) V N).2 := by
      simp [layerStepP]
    rw [hstep]
    have h4' : ∀ e ∈ (scanNew (fun n => p ++ [n]) (g.scan s) V N).2,
        IsDist g e.1 (ℓ + 1) ∧ PathSpec e.1 (ℓ + 1) e.2 := by
      intro e he
      rcases scanNew_entries (fun n => p ++ [n]) (g.scan s) V N e he with
        h | ⟨hpay, hmem, hnin⟩
      · exact h4 e h
      · have hd : IsDist g e.1 (ℓ + 1) := by
          refine isDist_succ_of_edge hsF hmem ?_
          rintro ⟨d, hd, hdist⟩
          exact hnin ((h6 e.1).mpr (Or.inl ⟨d, hd, hdist⟩))
        refine ⟨hd, ?_⟩
        rw [hpay]
        exact pathSpec_extend hsP
    have h5' : ((scanNew (fun n => p ++ [n]) (g.scan s) V N).2.map Prod.fst).Nodup := by
      rw [hnames.2]
      exact discover_nodup (g.scan s) V (N.map Prod.fst) h5 hNV
    have h6' : ∀ x, x ∈ (scanNew (fun n => p ++ [n]) (g.scan s) V N).1 ↔
        ((∃ d, d ≤ ℓ ∧ IsDist g x d)
          ∨ x ∈ (scanNew (fun n => p ++ [n]) (g.scan s) V N).2.map Prod.fst) := by
      intro x
      rw [hnames.1, hnames.2]
      exact discover_iff (fun x => ∃ d, d ≤ ℓ ∧ IsDist g x d)
        (g.scan s) V (N.map Prod.fst) h6 x
    refine ih _ _ (fun e' he' => h1 e' (List.mem_cons_of_mem _ he'))
      (fun e' he' => h2 e' (List.mem_cons_of_mem _ he'))
      h4' h5' h6' ?_
    · intro t ht
      rcases h7 t ht with h | ⟨s', hs', hmem⟩
      · left
        rw [hnames.2]
        exact discover_sub (g.scan s) V (N.map Prod.fst) t h
      · rcases List.mem_cons.mp (by simpa using hs' : s' ∈ s :: F'.map Prod.fst)
          with rfl | hs''
        · left
          have htV : t ∈ (scanNew (fun n => p ++ [n]) (g.scan s') V N).1 := by
            rw [hnames.1]
            exact discover_coversAll (g.scan s') V (N.map Prod.fst) t hmem
          rcases (h6' t).mp htV with ⟨d, hd, hdist⟩ | h
          · have := isDist_unique hdist ht
            omega
          · exact h
        · exact Or.inr ⟨s', hs'', hmem⟩

theorem bfsPath_layers (g : Graph) (target : String) :
    ∀ (n ℓ : Nat) (F : List (String × List String)) (V : Finset String),
      (g.nodeFinset \ V).card = n →
      (∀ e ∈ F, PathSpec e.1 ℓ e.2) →
      (∀ s, s ∈ F.map Prod.fst ↔ IsDist g s ℓ) →
      (F.map Prod.fst).Nodup →
      (∀ x, x ∈ V ↔ ∃ d, d ≤ ℓ ∧ IsDist g x d) →
      (∀ d, IsDist g target d → ℓ ≤ d →
          PathSpec target d (bfsPath g target F V)) ∧
      ((∀ d, ¬ Reach g target d) → bfsPath g target F V = []) := by
  intro n
  induction n using Nat.strong_induction_on with
  | _ n ih =>
    intro ℓ F V hcard h1 h2 h3 hV
    by_cases htgt : target ∈ F.map Prod.fst
    · obtain ⟨e, heF, he1⟩ := List.mem_map.mp htgt
      obtain ⟨s, p⟩ := e
      simp only at he1
      have he1' : target = s := he1.symm
      subst he1'
      obtain ⟨F₁, F₂, hsplit⟩ := List.append_of_mem heF
      have hdisj : target ∉ F₁.map Prod.fst := by
        rw [hsplit] at h3
        simp only [List.map_append, List.map_cons] at h3
        have := (List.nodup_append.mp h3).2.2
        intro hc
        exact this hc (List.mem_cons_self _ _)
      have hA : ∀ e' ∈ F₁, e'.1 ≠ target := by
        intro e' he' hc
        exact hdisj (List.mem_map.mpr ⟨e', he', hc⟩)
      have hres : bfsPath g target F V = p := by
        rw [hsplit]
        exact bfsPath_hit g target F₁ F₂ V p hA
      have hdT : IsDist g target ℓ := (h2 target).mp htgt
      constructor
      · intro d hd hld
        have hdℓ : d = ℓ := isDist_unique hd hdT
        subst hdℓ
        rw [hres]
        exact h1 (target, p) heF
      · intro hB
        exact absurd hdT.1 (hB ℓ)
    · have hFne : ∀ e ∈ F, e.1 ≠ target := by
        intro e he hc
        exact htgt (List.mem_map.mpr ⟨e, he, hc⟩)
      have hdrain : bfsPath g target F V
          = bfsPath g target (layerStepP g F V []).2 (layerStepP g F V []).1 := by
        have happ : bfsPath g target F V = bfsPath g target (F ++ []) V := by
          simp
        rw [happ]
        exact bfsPath_drain g target F [] V hFne
      obtain ⟨c1, c2, c3, c4⟩ := layerStepP_spec g ℓ F V [] h1
        (fun e he => (h2 e.1).mp (List.mem_map.mpr ⟨e, he, rfl⟩))
        (by intro e he; simp at he)
        (by simp)
        (by intro x; rw [hV x]; simp)
        (by
          intro t ht
          obtain ⟨s, hs, hmem⟩ := isDist_succ_inv ht
          exact Or.inr ⟨s, (h2 s).mpr hs, hmem⟩)
      have hF' : ∀ s, s ∈ (layerStepP g F V []).2.map Prod.fst
          ↔ IsDist g s (ℓ + 1) := by
        intro s
        constructor
        · intro hs
          obtain ⟨e, he, he1⟩ := List.mem_map.mp hs
          subst he1
          exact (c1 e he).1
        · intro hs
          exact c3 s hs
      have hV'' : ∀ x, x ∈ (layerStepP g F V []).1
          ↔ ∃ d, d ≤ ℓ + 1 ∧ IsDist g x d := by
        intro x
        rw [c4 x]
        constructor
        · rintro (⟨d, hd, hdist⟩ | hx)
          · exact ⟨d, by omega, hdist⟩
          · exact ⟨ℓ + 1, le_refl _, (hF' x).mp hx⟩
        · rintro ⟨d, hd, hdist⟩
          rcases Nat.lt_or_ge d (ℓ + 1) with hlt' | hge'
          · exact Or.inl ⟨d, by omega, hdist⟩
          · have hdeq : d = ℓ + 1 := by omega
            subst hdeq
            exact Or.inr ((hF' x).mpr hdist)
      by_cases hP2 : (layerStepP g F V []).2 = []
      · constructor
        · intro d hd hld
          exfalso
          rcases Nat.eq_or_lt_of_le hld with heq | hlt
          · exact htgt ((h2 target).mpr (heq ▸ hd))
          · obtain ⟨u, hu⟩ := isDist_level_nonempty hd (ℓ + 1) (by omega)
            have := (hF' u).mpr hu
            rw [hP2] at this
            simp at this
        · intro _
          rw [hdrain, hP2, bfsPath_nil]
      · obtain ⟨e₀, he₀⟩ := List.exists_mem_of_ne_nil _ hP2
        have hu : IsDist g e₀.1 (ℓ + 1) := (c1 e₀ he₀).1
        have huV : e₀.1 ∉ V := by
          intro hc
          obtain ⟨d', hd', hdist'⟩ := (hV e₀.1).mp hc
          have := isDist_unique hu hdist'
          omega
        have huNode : e₀.1 ∈ g.nodeFinset := by
          rcases reach_mem_nodeList hu.1 with h | h
          · exfalso
            rw [h] at hu
            have := isDist_unique hu (isDist_home g)
            omega
          · simpa [Graph.nodeFinset, List.mem_toFinset] using h
        have huP1 : e₀.1 ∈ (layerStepP g F V []).1 :=
          (c4 e₀.1).mpr (Or.inr (List.mem_map.mpr ⟨e₀, he₀, rfl⟩))
        have hcard' : (g.nodeFinset \ (layerStepP g F V []).1).card < n := by
          rw [← hcard]
          refine Finset.card_lt_card ?_
          rw [Finset.ssubset_iff_of_subset
            (Finset.sdiff_subset_sdiff (Finset.Subset.refl _)
              (layerStepP_monoV g F V []))]
          exact ⟨e₀.1, Finset.mem_sdiff.mpr ⟨huNode, huV⟩,
            fun hc => (Finset.mem_sdiff.mp hc).2 huP1⟩
        have hIH := ih _ hcard' (ℓ + 1) (layerStepP g F V []).2
          (layerStepP g F V []).1 rfl (fun e he => (c1 e he).2) hF' c2 hV''
        constructor
        · intro d hd hld
          rcases Nat.eq_or_lt_of_le hld with heq | hlt
          · exact absurd ((h2 target).mpr (heq ▸ hd)) htgt
          · rw [hdrain]
            exact hIH.1 d hd (by omega)
        · intro hB
          rw [hdrain]
          exact hIH.2 hB

/-- C2: for every finite graph and target, `getPathToServer` returns a
sequence that starts with `"home"`, ends with the target, and has length
equal to the target's shortest hop distance from `"home"` plus one; for an
unreachable target (in particular a name the adjacency function never
produces) it returns the empty sequence, distinguished from every valid
path, whose length is at least 1. -/
theorem getPathToServer_shortest (g : Graph) (target : String) :
    (∀ d, IsDist g target d →
        (getPathToServer g target).head? = some "home" ∧
        (getPathToServer g target).getLast? = some target ∧
        (getPathToServer g target).length = d + 1) ∧
    ((∀ d, ¬ Reach g target d) → getPathToServer g target = []) := by
  have h := bfsPath_layers g target ((g.nodeFinset \ {"home"}).card) 0
    [("home", ["home"])] {"home"} rfl
    (by
      intro e he
      simp at he
      subst he
      exact ⟨rfl, rfl, rfl⟩)
    (by
      intro s
      simp only [List.map_cons, List.map_nil, List.mem_singleton]
      constructor
      · rintro rfl; exact isDist_home g
      · intro hs; exact isDist_zero_iff.mp hs)
    (by simp)
    (by
      intro x
      simp only [Finset.mem_singleton]
      constructor
      · rintro rfl; exact ⟨0, le_refl 0, isDist_home g⟩
      · rintro ⟨d, hd, hdist⟩
        interval_cases d
        exact isDist_zero_iff.mp hdist)
  constructor
  · intro d hd
    exact h.1 d hd (Nat.zero_le d)
  · exact h.2

/-- Witness for C2: on the concrete graph `gEx` the reconstructed path for
`"b"` (at distance 2) is `home`-first, `"b"`-last, of length 3, and the
unknown name `"zzz"` yields the empty sequence. -/
theorem getPathToServer_shortest_witness :
    (getPathToServer gEx "b").head? = some "home" ∧
    (getPathToServer gEx "b").getLast? = some "b" ∧
    (getPathToServer gEx "b").length = 2 + 1 ∧
    getPathToServer gEx "zzz" = [] := by
  have hdist : IsDist gEx "b" 2 := by
    constructor
    · exact @Reach.step gEx "a" "b" 1
        (@Reach.step gEx "home" "a" 0 Reach.home (by decide)) (by decide)
    · intro d' hd' hr
      interval_cases d'
      · exact absurd (reach_zero hr) (by decide)
      · obtain ⟨s, hs0, hmem⟩ := reach_succ_inv hr
        have hs := reach_zero hs0
        subst hs
        exact absurd hmem (by decide)
  have hunreach : ∀ d, ¬ Reach gEx "zzz" d := by
    intro d hr
    rcases reach_mem_nodeList hr with h | h
    · exact absurd h (by decide)
    · exact absurd h (by decide)
  have h1 := (getPathToServer_shortest gEx "b").1 2 hdist
  have h2 := (getPathToServer_shortest gEx "zzz").2 hunreach
  exact ⟨h1.1, h1.2.1, h1.2.2, h2⟩

/-! ### Shared utilities for the action/effect embeddings -/

/-- `String.prototype.startsWith`, modelled on the character list so that
concrete instances evaluate in the kernel. -/
def startsWithStr (s pre : String) : Bool := pre.data.isPrefixOf s.data

/-- A `for (const a of l) { emit(f a) }` loop over a list, concatenating the
effects each iteration emits. -/
def concatMap {α β : Type} (f : α → List β) : List α → List β
  | [] => []
  | a :: l => f a ++ concatMap f l

theorem mem_concatMap {α β : Type} (f : α → List β) (x : β) :
    ∀ l : List α, x ∈ concatMap f l ↔ ∃ a ∈ l, x ∈ f a := by
  intro l
  induction l with
  | nil => simp [concatMap]
  | cons a l ih =>
    simp only [concatMap, List.mem_append, ih]
    constructor
    · rintro (h | ⟨a', ha', hx⟩)
      · exact ⟨a, List.mem_cons_self _ _, h⟩
      · exact ⟨a', List.mem_cons_of_mem _ ha', hx⟩
    · rintro ⟨a', ha', hx⟩
      rcases List.mem_cons.mp ha' with rfl | ha''
      · exact Or.inl hx
      · exact Or.inr ⟨a', ha'', hx⟩

/-- Structured stand-ins for the `ns.tprint` messages the scripts emit; each
constructor corresponds to one `tprint` site and carries the data that the
source interpolates there. -/
inductive Msg where
  | errorInvalidHop
  | running (script server : String) (threads : Int)
  | skipInsufficientRam (script server : String)
  | warnZeroRam (script server : String)
  | overwriting (script server : String)
  | notEnoughPorts (server : String) (opened required : Nat)
  | skipCannotNuke (server : String)
  | scanning (server : String)
  | found (file server : String)
  | killing (file server : String) (pid : Nat) (args : List String)
  | attemptedStop (file server : String)
  | removed (file server : String)
  | removeFailed (file server : String)
  | separator
  | processing (servers : List String)
  | manuallyExcludedList (servers : List String)
  | removingScripts (scripts : List String)
  | maxHopMsg (hop : Rat)
  | excludePrivateMsg (b : Bool)
  deriving DecidableEq

/-- The host-API side effects a script can request.  `Effect.print` wraps a
console message; the rest mirror `ns.scp`, the port openers, `ns.nuke`,
`ns.exec`, `ns.kill`, `ns.rm` and `ns.sleep`. -/
inductive Effect where
  | print (m : Msg)
  | scp (scripts : List String) (server : String)
  | openPort (tool server : String)
  | nuke (server : String)
  | exec (script server : String) (threads : Int) (args : List String)
  | kill (script server : String) (args : List String)
  | rm (file server : String)
  | sleep (ms : Nat)
  deriving DecidableEq

/-! ### Thread sizing policies (§4.3)

RAM quantities are JS numbers, modelled as `Rat`; `Math.floor` is `Int.floor`.
Each policy returns the thread count together with the flag recording whether
the zero-footprint warning was printed. -/

/-- `deploy.js:calculateThreads` (the table variant): fixed counts below/at
16 GB and at 32 GB, otherwise `floor(maxRam / scriptRam)` with a warned
fallback to 1 when the script reports 0 RAM. -/
def calculateThreadsTable (maxRam scriptRam : Rat) : Int × Bool :=
  if maxRam < 16 then (1, false)
  else if maxRam = 16 then (6, false)
  else if maxRam = 32 then (12, false)
  else if scriptRam = 0 then (1, true)
  else (⌊maxRam / scriptRam⌋, false)

/-- The available-capacity `calculateThreads` variant shared by the three
argument-driven deploy scripts: `floor((maxRam - usedRam) / scriptRam)`,
warned fallback to 1 when `scriptRam ≤ 0`, and a floor of 1 otherwise. -/
def calculateThreadsAvail (maxRam usedRam scriptRam : Rat) : Int × Bool :=
  if scriptRam ≤ 0 then (1, true)
  else
    ((if 0 < ⌊(maxRam - usedRam) / scriptRam⌋
        then ⌊(maxRam - usedRam) / scriptRam⌋ else 1), false)

theorem calcTable_lt16 (cap fp : Rat) (h : cap < 16) :
    calculateThreadsTable cap fp = (1, false) := by
  simp [calculateThreadsTable, h]

theorem calcAvail_nonpos (cap used fp : Rat) (h : fp ≤ 0) :
    calculateThreadsAvail cap used fp = (1, true) := by
  simp [calculateThreadsAvail, h]

/-- C4: the table-variant thread sizing returns 1 for any capacity below 16,
6 at capacity 16, 12 at capacity 32, and `floor(capacity / footprint)` for
every other capacity, except that a zero footprint warns and yields 1; in
particular `threadCount(8, x) = 1`, `threadCount(16, x) = 6`,
`threadCount(32, x) = 12`, `threadCount(64, 8) = 8` and
`threadCount(64, 0) = 1` with the warning flag set. -/
theorem calculateThreadsTable_policy :
    (∀ cap fp : Rat, cap < 16 → calculateThreadsTable cap fp = (1, false)) ∧
    (∀ fp : Rat, calculateThreadsTable 16 fp = (6, false)) ∧
    (∀ fp : Rat, calculateThreadsTable 32 fp = (12, false)) ∧
    (∀ cap fp : Rat, ¬ cap < 16 → cap ≠ 16 → cap ≠ 32 → fp ≠ 0 →
        calculateThreadsTable cap fp = (⌊cap / fp⌋, false)) ∧
    (∀ cap : Rat, ¬ cap < 16 → cap ≠ 16 → cap ≠ 32 →
        calculateThreadsTable cap 0 = (1, true)) ∧
    (∀ fp : Rat, calculateThreadsTable 8 fp = (1, false)) ∧
    calculateThreadsTable 64 8 = (8, false) ∧
    calculateThreadsTable 64 0 = (1, true) := by
  refine ⟨?_, ?_, ?_, ?_, ?_, ?_, ?_, ?_⟩
  · intro cap fp h
    simp [calculateThreadsTable, h]
  · intro fp
    have h16 : ¬ (16 : Rat) < 16 := by norm_num
    simp [calculateThreadsTable, h16]
  · intro fp
    have h1 : ¬ (32 : Rat) < 16 := by norm_num
    have h2 : (32 : Rat) ≠ 16 := by norm_num
    simp [calculateThreadsTable, h1, h2]
  · intro cap fp h1 h2 h3 h4
    simp [calculateThreadsTable, h1, h2, h3, h4]
  · intro cap h1 h2 h3
    simp [calculateThreadsTable, h1, h2, h3]
  · intro fp
    have h : (8 : Rat) < 16 := by norm_num
    simp [calculateThreadsTable, h]
  · have h1 : ¬ (64 : Rat) < 16 := by norm_num
    have h2 : (64 : Rat) ≠ 16 := by norm_num
    have h3 : (64 : Rat) ≠ 32 := by norm_num
    have h4 : (8 : Rat) ≠ 0 := by norm_num
    simp [calculateThreadsTable, h1, h2, h3, h4]
    norm_num
  · have h1 : ¬ (64 : Rat) < 16 := by norm_num
    have h2 : (64 : Rat) ≠ 16 := by norm_num
    have h3 : (64 : Rat) ≠ 32 := by norm_num
    simp [calculateThreadsTable, h1, h2, h3]

/-- Witness for C4: the table policy evaluated at the concrete inputs the
claim lists. -/
theorem calculateThreadsTable_policy_witness :
    calculateThreadsTable 8 3 = (1, false) ∧
    calculateThreadsTable 16 3 = (6, false) ∧
    calculateThreadsTable 32 3 = (12, false) ∧
    calculateThreadsTable 64 8 = (8, false) ∧
    calculateThreadsTable 64 0 = (1, true) :=
  ⟨calculateThreadsTable_policy.1 8 3 (by norm_num),
   calculateThreadsTable_policy.2.1 3,
   calculateThreadsTable_policy.2.2.1 3,
   calculateThreadsTable_policy.2.2.2.2.2.2.1,
   calculateThreadsTable_policy.2.2.2.2.2.2.2⟩

/-- C5: the available-capacity thread sizing warns and returns 1 for any
footprint `≤ 0`, and otherwise returns
`max(floor((capacity - used) / footprint), 1)`; it never returns 0, and in
particular `threadCount(32, 16, 8) = 2` and `threadCount(32, 30, 8) = 1`. -/
theorem calculateThreadsAvail_policy :
    (∀ cap used fp : Rat, fp ≤ 0 →
        calculateThreadsAvail cap used fp = (1, true)) ∧
    (∀ cap used fp : Rat, 0 < fp →
        calculateThreadsAvail cap used fp = (max ⌊(cap - used) / fp⌋ 1, false)) ∧
    (∀ cap used fp : Rat, 1 ≤ (calculateThreadsAvail cap used fp).1) ∧
    (∀ cap used fp : Rat, (calculateThreadsAvail cap used fp).1 ≠ 0) ∧
    calculateThreadsAvail 32 16 8 = (2, false) ∧
    calculateThreadsAvail 32 30 8 = (1, false) := by
  have hmain : ∀ cap used fp : Rat, 0 < fp →
      calculateThreadsAvail cap used fp = (max ⌊(cap - used) / fp⌋ 1, false) := by
    intro cap used fp h
    have h' : ¬ fp ≤ 0 := by linarith
    simp only [calculateThreadsAvail, if_neg h']
    rcases le_or_lt ⌊(cap - used) / fp⌋ 0 with hle | hpos
    · rw [if_neg (by omega), max_eq_right (by omega)]
    · rw [if_pos hpos, max_eq_left (by omega)]
  have hone : ∀ cap used fp : Rat, 1 ≤ (calculateThreadsAvail cap used fp).1 := by
    intro cap used fp
    by_cases h : fp ≤ 0
    · simp [calculateThreadsAvail, h]
    · simp only [calculateThreadsAvail, if_neg h]
      rcases le_or_lt ⌊(cap - used) / fp⌋ 0 with hle | hpos
      · rw [if_neg (by omega)]
      · rw [if_pos hpos]
        omega
  refine ⟨?_, hmain, hone, ?_, ?_, ?_⟩
  · intro cap used fp h
    simp [calculateThreadsAvail, h]
  · intro cap used fp
    have := hone cap used fp
    omega
  · rw [hmain 32 16 8 (by norm_num)]
    norm_num
  · rw [hmain 32 30 8 (by norm_num)]
    norm_num

/-- Witness for C5: the warned branch and the two concrete evaluations the
claim lists. -/
theorem calculateThreadsAvail_policy_witness :
    calculateThreadsAvail 32 16 0 = (1, true) ∧
    calculateThreadsAvail 32 16 8 = (max ⌊((32 : Rat) - 16) / 8⌋ 1, false) ∧
    1 ≤ (calculateThreadsAvail 32 30 8).1 :=
  ⟨calculateThreadsAvail_policy.1 32 16 0 (by norm_num),
   calculateThreadsAvail_policy.2.1 32 16 8 (by norm_num),
   calculateThreadsAvail_policy.2.2.1 32 30 8⟩

/-! ### Deploy actions

`DeployEnv` packages the host queries the deploy scripts make; each field is
one `ns.*` accessor.  `portsRequired` is `ns.getServerNumPortsRequired`
(a small non-negative integer in the host API). -/

structure DeployEnv where
  homeFiles : List String
  hasRootInit : String → Bool
  portsRequired : String → Nat
  maxRam : String → Rat
  usedRam : String → Rat
  scriptRam : String → String → Rat
  isRunning : String → String → Bool

/-- The five port-opener programs the scripts probe, in source order. -/
def portOpeners : List String :=
  ["BruteSSH.exe", "FTPCrack.exe", "relaySMTP.exe", "HTTPWorm.exe", "SQLInject.exe"]

/-- Number of port openers present on `"home"` (the `portsOpened` counter). -/
def portsOpened (env : DeployEnv) : Nat :=
  (portOpeners.filter (fun t => env.homeFiles.contains t)).length

/-- The port-opening calls (`ns.brutessh(server)` …) issued for the tools
present on `"home"`, in source order. -/
def openEffects (env : DeployEnv) (server : String) : List Effect :=
  (portOpeners.filter (fun t => env.homeFiles.contains t)).map
    (fun t => Effect.openPort t server)

/-- `deploy.js:canNuke` (no private-server bypass): enough openers exist for
the server's required port count. -/
def canNukeV1 (env : DeployEnv) (server : String) : Bool :=
  decide (env.portsRequired server ≤ portsOpened env)

/-- The `canNuke` of the two argument-driven deploy scripts: names starting
with `"pserv-"` bypass the check unconditionally. -/
def canNukeV2 (env : DeployEnv) (server : String) : Bool :=
  if startsWithStr server "pserv-" then true
  else decide (env.portsRequired server ≤ portsOpened env)

/-- `parseInt` on an all-digit suffix. -/
def natOfDigits (cs : List Char) : Nat :=
  cs.foldl (fun acc c => 10 * acc + (c.toNat - '0'.toNat)) 0

/-- The `^pserv-(\d+)$` test with `parseInt` bound check of the third
`canNuke` variant: the name is `pserv-` followed only by digits whose value
is at most 24. -/
def pservIndexBypass (s : String) : Bool :=
  startsWithStr s "pserv-" &&
    (decide (s.data.drop 6 ≠ []) && (s.data.drop 6).all Char.isDigit
      && decide (natOfDigits (s.data.drop 6) ≤ 24))

/-- The `canNuke` of the third deploy variant: the bypass only covers
`pserv-0` … `pserv-24`. -/
def canNukeV0 (env : DeployEnv) (server : String) : Bool :=
  if pservIndexBypass server then true
  else decide (env.portsRequired server ≤ portsOpened env)

/-- The candidate split of the argument-driven deploy scripts: servers that
pass `canNuke` become `validServers`, the rest are reported as skipped for
insufficient port openers. -/
def selectValid (env : DeployEnv) : List String → List String × List String
  | [] => ([], [])
  | s :: rest =>
      if canNukeV2 env s then
        ((selectValid env rest).1.cons s, (selectValid env rest).2)
      else
        ((selectValid env rest).1, (selectValid env rest).2.cons s)

/-- The deployment loop of `deploy.js:gainRootAccess` (lines 152–158): for
each payload the thread count is computed and `ns.exec` is called with it,
with no guard on the computed value. -/
def deployScriptsV1 (env : DeployEnv) (server : String)
    (scripts : List String) : List Effect :=
  concatMap (fun script =>
    (if (calculateThreadsTable (env.maxRam server)
          (env.scriptRam script server)).2 then
        [Effect.print (Msg.warnZeroRam script server)]
      else [])
    ++ [Effect.print (Msg.running script server
          (calculateThreadsTable (env.maxRam server)
            (env.scriptRam script server)).1),
        Effect.exec script server
          (calculateThreadsTable (env.maxRam server)
            (env.scriptRam script server)).1 []]) scripts

/-- `deploy.js:gainRootAccess`: open ports and nuke when the server is not
yet rooted (skipping it when openers are insufficient), then run the
deployment loop. -/
def gainRootAccessV1 (env : DeployEnv) (server : String)
    (scripts : List String) : List Effect :=
  if env.hasRootInit server then deployScriptsV1 env server scripts
  else if env.portsRequired server ≤ portsOpened env then
    openEffects env server ++ [Effect.nuke server]
      ++ deployScriptsV1 env server scripts
  else
    openEffects env server
      ++ [Effect.print (Msg.notEnoughPorts server (portsOpened env)
            (env.portsRequired server))]

/-- The deployment loop of the argument-driven deploy variant
(`gainRootAccess` lines 195–211 of the hack-target variant): a same-named
running instance is killed first, the available-capacity thread count is
computed, and the exec is guarded by `threads > 0`. -/
def deployScriptsV2 (env : DeployEnv) (server : String)
    (scripts : List String) (hackTarget : String) : List Effect :=
  concatMap (fun script =>
    (if env.isRunning script server then
        [Effect.kill script server [], Effect.print (Msg.overwriting script server)]
      else [])
    ++ (if (calculateThreadsAvail (env.maxRam server) (env.usedRam server)
          (env.scriptRam script server)).2 then
        [Effect.print (Msg.warnZeroRam script server)]
      else [])
    ++ (if 0 < (calculateThreadsAvail (env.maxRam server) (env.usedRam server)
          (env.scriptRam script server)).1 then
        [Effect.print (Msg.running script server
            (calculateThreadsAvail (env.maxRam server) (env.usedRam server)
              (env.scriptRam script server)).1),
          Effect.exec script server
            (calculateThreadsAvail (env.maxRam server) (env.usedRam server)
              (env.scriptRam script server)).1 [hackTarget]]
      else [Effect.print (Msg.skipInsufficientRam script server)])) scripts

/-- A concrete deploy environment: `"a"` is already rooted, has 64 GB of
RAM, and the payload `"s.js"` reports a 100 GB footprint, so the table
policy computes `floor(64 / 100) = 0` threads. -/
def envC3 : DeployEnv :=
  ⟨[], fun _ => true, fun _ => 0, fun _ => 64, fun _ => 0,
    fun _ _ => 100, fun _ _ => false⟩

/-- C3: evaluation at the failing input.  The table policy computes a thread
count of 0 for a 100 GB payload on a 64 GB server, and `deploy.js`'s
`gainRootAccess` still issues the `ns.exec` run request with 0 threads
instead of skipping the payload (the argument-driven variants guard with
`threads > 0`; this variant does not). -/
theorem deploy_execs_with_zero_threads :
    calculateThreadsTable 64 100 = (0, false) ∧
    gainRootAccessV1 envC3 "a" ["s.js"]
      = [Effect.print (Msg.running "s.js" "a" 0), Effect.exec "s.js" "a" 0 []] ∧
    Effect.exec "s.js" "a" 0 [] ∈ gainRootAccessV1 envC3 "a" ["s.js"] := by
  have h : calculateThreadsTable 64 100 = (0, false) := by
    have h1 : ¬ (64 : Rat) < 16 := by norm_num
    have h2 : (64 : Rat) ≠ 16 := by norm_num
    have h3 : (64 : Rat) ≠ 32 := by norm_num
    have h4 : (100 : Rat) ≠ 0 := by norm_num
    simp [calculateThreadsTable, h1, h2, h3, h4]
    norm_num
  have hroot : envC3.hasRootInit "a" = true := rfl
  have hm : envC3.maxRam "a" = 64 := rfl
  have hs : envC3.scriptRam "s.js" "a" = 100 := rfl
  have htrace : gainRootAccessV1 envC3 "a" ["s.js"]
      = [Effect.print (Msg.running "s.js" "a" 0), Effect.exec "s.js" "a" 0 []] := by
    simp [gainRootAccessV1, hroot, deployScriptsV1, concatMap, hm, hs, h]
  refine ⟨h, htrace, ?_⟩
  rw [htrace]
  simp

/-- A deploy environment where the payload reports a negative footprint. -/
def envC7 : DeployEnv :=
  ⟨[], fun _ => true, fun _ => 0, fun _ => 32, fun _ => 0,
    fun _ _ => -2, fun _ _ => false⟩

theorem deployScriptsV2_exec_of_neg (env : DeployEnv)
    (server script tgt : String) (h : env.scriptRam script server < 0) :
    Effect.exec script server 1 [tgt]
      ∈ deployScriptsV2 env server [script] tgt := by
  have ht : calculateThreadsAvail (env.maxRam server) (env.usedRam server)
      (env.scriptRam script server) = (1, true) :=
    calcAvail_nonpos _ _ _ (le_of_lt h)
  by_cases hr : env.isRunning script server
  · simp [deployScriptsV2, concatMap, ht, hr]
  · simp [deployScriptsV2, concatMap, ht, hr]

/-- Counterexample to C7: negative capacity and negative footprint are not
rejected — the table policy returns 1 thread for a negative capacity, the
available-capacity policy warns and returns 1 for a negative footprint, and
the deployment loop still issues the run request (1 thread) for the
negative-footprint payload instead of signalling failure. -/
theorem threadPolicy_negative_not_rejected :
    calculateThreadsTable (-8) 5 = (1, false) ∧
    calculateThreadsAvail 32 0 (-2) = (1, true) ∧
    Effect.exec "s.js" "a" 1 ["t"] ∈ deployScriptsV2 envC7 "a" ["s.js"] "t" := by
  refine ⟨?_, ?_, ?_⟩
  · have h : (-8 : Rat) < 16 := by norm_num
    simp [calculateThreadsTable, h]
  · have h : (-2 : Rat) ≤ 0 := by norm_num
    simp [calculateThreadsAvail, h]
  · exact deployScriptsV2_exec_of_neg envC7 "a" "s.js" "t"
      (by norm_num : ((-2 : Rat) < 0))

/-- C7 (amended): neither policy rejects a negative input.  A negative
capacity falls into the table policy's `< 16` row and yields 1 thread with
no warning; a negative footprint makes the available-capacity policy warn
and yield 1 thread; and the deploy loop proceeds to issue the run request
with that count, so no failure is signalled. -/
theorem threadPolicy_negative_amended :
    (∀ cap fp : Rat, cap < 0 → calculateThreadsTable cap fp = (1, false)) ∧
    (∀ cap used fp : Rat, fp < 0 →
        calculateThreadsAvail cap used fp = (1, true)) ∧
    (∀ (env : DeployEnv) (server script tgt : String),
        env.scriptRam script server < 0 →
        Effect.exec script server 1 [tgt]
          ∈ deployScriptsV2 env server [script] tgt) := by
  refine ⟨?_, ?_, deployScriptsV2_exec_of_neg⟩
  · intro cap fp h
    exact calcTable_lt16 cap fp (by linarith)
  · intro cap used fp h
    exact calcAvail_nonpos cap used fp (le_of_lt h)

/-- Witness for the amended C7, at concrete negative inputs. -/
theorem threadPolicy_negative_amended_witness :
    calculateThreadsTable (-16) 3 = (1, false) ∧
    calculateThreadsAvail 64 0 (-5) = (1, true) ∧
    Effect.exec "t.js" "b" 1 ["x"] ∈ deployScriptsV2 envC7 "b" ["t.js"] "x" :=
  ⟨threadPolicy_negative_amended.1 (-16) 3 (by norm_num),
   threadPolicy_negative_amended.2.1 64 0 (-5) (by norm_num),
   threadPolicy_negative_amended.2.2 envC7 "b" "t.js" "x"
     (by norm_num : ((-2 : Rat) < 0))⟩

theorem selectValid_mem (env : DeployEnv) :
    ∀ (l : List String) (s : String),
      (s ∈ (selectValid env l).1 ↔ s ∈ l ∧ canNukeV2 env s = true) ∧
      (s ∈ (selectValid env l).2 ↔ s ∈ l ∧ canNukeV2 env s = false) := by
  intro l
  induction l with
  | nil => intro s; simp [selectValid]
  | cons a l ih =>
    intro s
    by_cases hc : canNukeV2 env a
    · simp only [selectValid, if_pos hc, List.mem_cons]
      constructor
      · constructor
        · rintro (rfl | hs)
          · exact ⟨Or.inl rfl, hc⟩
          · obtain ⟨h1, h2⟩ := ((ih s).1).mp hs
            exact ⟨Or.inr h1, h2⟩
        · rintro ⟨rfl | h1, h2⟩
          · exact Or.inl rfl
          · exact Or.inr (((ih s).1).mpr ⟨h1, h2⟩)
      · constructor
        · intro hs
          obtain ⟨h1, h2⟩ := ((ih s).2).mp hs
          exact ⟨Or.inr h1, h2⟩
        · rintro ⟨rfl | h1, h2⟩
          · rw [hc] at h2; cases h2
          · exact ((ih s).2).mpr ⟨h1, h2⟩
    · rw [Bool.not_eq_true] at hc
      simp only [selectValid, hc, Bool.false_eq_true, if_false,
        List.mem_cons]
      constructor
      · constructor
        · intro hs
          obtain ⟨h1, h2⟩ := ((ih s).1).mp hs
          exact ⟨Or.inr h1, h2⟩
        · rintro ⟨rfl | h1, h2⟩
          · rw [hc] at h2; cases h2
          · exact ((ih s).1).mpr ⟨h1, h2⟩
      · constructor
        · rintro (rfl | hs)
          · exact ⟨Or.inl rfl, hc⟩
          · obtain ⟨h1, h2⟩ := ((ih s).2).mp hs
            exact ⟨Or.inr h1, h2⟩
        · rintro ⟨rfl | h1, h2⟩
          · exact Or.inl rfl
          · exact Or.inr (((ih s).2).mpr ⟨h1, h2⟩)

/-- C10: in the argument-driven deploy variants, any name starting with
`"pserv-"` passes `canNuke` unconditionally — whatever port openers exist on
`"home"` and whatever the server's required port count — and therefore such
servers always land in `validServers` and never among the port-opener
skips; in the third variant the bypass covers exactly `pserv-0` …
`pserv-24` (e.g. `pserv-25` falls back to the port check). -/
theorem canNuke_private_bypass :
    (∀ (env : DeployEnv) (s : String),
        startsWithStr s "pserv-" = true → canNukeV2 env s = true) ∧
    (∀ (env : DeployEnv) (cands : List String) (s : String),
        s ∈ cands → startsWithStr s "pserv-" = true →
        s ∈ (selectValid env cands).1 ∧ s ∉ (selectValid env cands).2) ∧
    (∀ (env : DeployEnv) (n : Nat), n < 25 →
        canNukeV0 env ("pserv-" ++ toString n) = true) ∧
    (∀ env : DeployEnv, canNukeV0 env "pserv-25"
        = decide (env.portsRequired "pserv-25" ≤ portsOpened env)) := by
  have hV2 : ∀ (env : DeployEnv) (s : String),
      startsWithStr s "pserv-" = true → canNukeV2 env s = true := by
    intro env s h
    simp [canNukeV2, h]
  refine ⟨hV2, ?_, ?_, ?_⟩
  · intro env cands s hmem hpre
    have hc := hV2 env s hpre
    constructor
    · exact ((selectValid_mem env cands s).1).mpr ⟨hmem, hc⟩
    · intro hs
      have := ((selectValid_mem env cands s).2).mp hs
      rw [hc] at this
      cases this.2
  · intro env n hn
    have hb : pservIndexBypass ("pserv-" ++ toString n) = true :=
      (by decide :
        ∀ m, m < 25 → pservIndexBypass ("pserv-" ++ toString m) = true) n hn
    simp [canNukeV0, hb]
  · intro env
    have hb : pservIndexBypass "pserv-25" = false := by decide
    simp [canNukeV0, hb]

/-- A deploy environment with no port openers on `"home"` and every server
demanding 5 open ports: only the private-name bypass can make `canNuke`
succeed. -/
def envC10 : DeployEnv :=
  ⟨[], fun _ => false, fun _ => 5, fun _ => 0, fun _ => 0,
    fun _ _ => 0, fun _ _ => false⟩

/-- Witness for C10: with zero openers available and 5 ports required,
`pserv-3` still passes `canNuke`, is selected as valid and not skipped, and
`pserv-7` passes the indexed-bypass variant. -/
theorem canNuke_private_bypass_witness :
    canNukeV2 envC10 "pserv-3" = true ∧
    ("pserv-3" ∈ (selectValid envC10 ["pserv-3", "n00dles"]).1 ∧
      "pserv-3" ∉ (selectValid envC10 ["pserv-3", "n00dles"]).2) ∧
    canNukeV0 envC10 ("pserv-" ++ toString 7) = true :=
  ⟨canNuke_private_bypass.1 envC10 "pserv-3" (by decide),
   canNuke_private_bypass.2.1 envC10 ["pserv-3", "n00dles"] "pserv-3"
     (by decide) (by decide),
   canNuke_private_bypass.2.2.1 envC10 7 (by decide)⟩

/-! ### Filter pipeline (argument-driven deploy `main`, lines 52–70)

The scanned list is filtered three ways: the manually excluded subset, the
private subset (names starting with `"pserv-"`, when the toggle is on), and
the surviving candidates.  The function returns
`(candidateServers, manuallyExcluded, privateExcluded)`. -/

def filterPipeline (scanned manualExcluded : List String)
    (excludePrivate : Bool) : List String × List String × List String :=
  (scanned.filter (fun s =>
      !(manualExcluded.contains s)
        && !(excludePrivate && startsWithStr s "pserv-")),
   scanned.filter (fun s => manualExcluded.contains s),
   if excludePrivate then scanned.filter (fun s => startsWithStr s "pserv-")
   else [])

/-- C8: on candidates `["home","n00dles","pserv-0","pserv-1"]` with manual
exclusion `["home"]` and the private-name exclusion enabled, the pipeline
yields exactly `["n00dles"]` and reports the manually-excluded subset
`["home"]` and the pattern-excluded subset `["pserv-0","pserv-1"]`. -/
theorem filterPipeline_example :
    filterPipeline ["home", "n00dles", "pserv-0", "pserv-1"] ["home"] true
      = (["n00dles"], ["home"], ["pserv-0", "pserv-1"]) := by
  decide

/-! ### Remove actions (`remove.js`)

`RemoveEnv` packages the host queries: `ns.scan` (via the graph), `ns.ls`,
`ns.ps` and the success/failure of `ns.rm`.  A `Proc` is one entry of
`ns.ps(server)`: filename, pid and the recorded invocation arguments. -/

structure Proc where
  filename : String
  pid : Nat
  args : List String
  deriving DecidableEq

structure RemoveEnv where
  g : Graph
  ls : String → List String
  ps : String → List Proc
  rmOk : String → String → Bool

/-- The process-kill loop of `remove.js` (lines 83–91): every running
process whose filename matches is killed with its own recorded arguments,
and the `foundRunning` flag records whether any match was seen. -/
def killLoop (file server : String) : List Proc → List Effect × Bool
  | [] => ([], false)
  | p :: rest =>
      if p.filename = file then
        ([Effect.print (Msg.killing file server p.pid p.args),
          Effect.kill file server p.args] ++ (killLoop file server rest).1,
         true)
      else killLoop file server rest

/-- Processing of one matching file on one server (`remove.js` lines
78–101): kill matching processes by their exact arguments, pause only when
something was running, then attempt the deletion once and report the
outcome. -/
def removeFile (env : RemoveEnv) (server file : String) : List Effect :=
  [Effect.print (Msg.found file server)]
  ++ (killLoop file server (env.ps server)).1
  ++ (if (killLoop file server (env.ps server)).2 then [Effect.sleep 100] else [])
  ++ [Effect.rm file server,
      Effect.print (if env.rmOk file server then Msg.removed file server
        else Msg.removeFailed file server)]

/-- Per-server processing of `remove.js` (lines 70–104): list the files and
process each one that matches the configured target list. -/
def removeServerScan (env : RemoveEnv) (targets : List String)
    (server : String) : List Effect :=
  Effect.print (Msg.scanning server)
    :: concatMap (fun file =>
        if file ∈ targets then removeFile env server file else [])
      (env.ls server)

theorem killLoop_cons_match (file server : String) (p : Proc)
    (rest : List Proc) (hp : p.filename = file) :
    killLoop file server (p :: rest)
      = ([Effect.print (Msg.killing file server p.pid p.args),
          Effect.kill file server p.args] ++ (killLoop file server rest).1,
         true) := by
  simp [killLoop, hp]

theorem killLoop_cons_skip (file server : String) (p : Proc)
    (rest : List Proc) (hp : ¬ p.filename = file) :
    killLoop file server (p :: rest) = killLoop file server rest := by
  simp [killLoop, hp]

theorem killLoop_spec (file server : String) :
    ∀ procs : List Proc,
      (killLoop file server procs).1
        = concatMap (fun p =>
            [Effect.print (Msg.killing file server p.pid p.args),
             Effect.kill file server p.args])
            (procs.filter (fun p => p.filename = file)) ∧
      ((killLoop file server procs).2 = true
        ↔ procs.filter (fun p => p.filename = file) ≠ []) := by
  intro procs
  induction procs with
  | nil => simp [killLoop, concatMap]
  | cons p rest ih =>
    by_cases hp : p.filename = file
    · rw [killLoop_cons_match file server p rest hp]
      have hfil : (p :: rest).filter (fun p => decide (p.filename = file))
          = p :: rest.filter (fun p => decide (p.filename = file)) := by
        simp [List.filter_cons, hp]
      rw [hfil]
      constructor
      · simp only [concatMap, ih.1]
      · simp
    · rw [killLoop_cons_skip file server p rest hp]
      have hfil : (p :: rest).filter (fun p => decide (p.filename = file))
          = rest.filter (fun p => decide (p.filename = file)) := by
        simp [List.filter_cons, hp]
      rw [hfil]
      exact ih

theorem killLoop_kill_mem (file server : String) (a : List String) :
    ∀ procs : List Proc,
      Effect.kill file server a ∈ (killLoop file server procs).1
        ↔ ∃ p ∈ procs, p.filename = file ∧ p.args = a := by
  intro procs
  induction procs with
  | nil => simp [killLoop]
  | cons p rest ih =>
    by_cases hp : p.filename = file
    · rw [killLoop_cons_match file server p rest hp]
      simp only [List.mem_append, List.mem_cons]
      constructor
      · rintro ((h | h) | h)
        · cases h
        · simp only [List.not_mem_nil, or_false] at h
          injection h with h1 h2 h3
          exact ⟨p, Or.inl rfl, hp, h3.symm⟩
        · obtain ⟨p', hp', hpf, hpa⟩ := ih.mp h
          exact ⟨p', Or.inr hp', hpf, hpa⟩
      · rintro ⟨p', hp', hpf, hpa⟩
        rcases hp' with rfl | hrest
        · refine Or.inl (Or.inr ?_)
          simp [hpa]
        · exact Or.inr (ih.mpr ⟨p', hrest, hpf, hpa⟩)
    · rw [killLoop_cons_skip file server p rest hp]
      rw [ih]
      constructor
      · rintro ⟨p', hp', hpf, hpa⟩
        exact ⟨p', List.mem_cons_of_mem _ hp', hpf, hpa⟩
      · rintro ⟨p', hp', hpf, hpa⟩
        rcases List.mem_cons.mp hp' with rfl | hrest
        · exact absurd hpf hp
        · exact ⟨p', hrest, hpf, hpa⟩

theorem killLoop_no_rm (file server file' server' : String) :
    ∀ procs : List Proc,
      Effect.rm file' server' ∉ (killLoop file server procs).1 := by
  intro procs
  induction procs with
  | nil => simp [killLoop]
  | cons p rest ih =>
    by_cases hp : p.filename = file
    · simp only [killLoop, if_pos hp]
      intro h
      rcases List.mem_append.mp h with h' | h'
      · simp at h'
      · exact ih h'
    · simp only [killLoop, if_neg hp]
      exact ih

/-- C9: in the filename+args remove variant, processing a matching file
kills exactly the running processes whose filename matches — each killed
with that process's own recorded arguments — then attempts the deletion:
the `ns.rm` request is issued exactly once per matching file, even when no
matching process was running, and the success/failure report follows it
without any retry. -/
theorem remove_kills_by_args_then_deletes_once :
    (∀ (env : RemoveEnv) (server file : String),
        removeFile env server file
          = [Effect.print (Msg.found file server)]
            ++ concatMap (fun p =>
                [Effect.print (Msg.killing file server p.pid p.args),
                 Effect.kill file server p.args])
              ((env.ps server).filter (fun p => p.filename = file))
            ++ (if (env.ps server).filter (fun p => p.filename = file) = []
                then [] else [Effect.sleep 100])
            ++ [Effect.rm file server,
                Effect.print (if env.rmOk file server then Msg.removed file server
                  else Msg.removeFailed file server)]) ∧
    (∀ (env : RemoveEnv) (server file : String) (a : List String),
        Effect.kill file server a ∈ removeFile env server file
          ↔ ∃ p ∈ env.ps server, p.filename = file ∧ p.args = a) ∧
    (∀ (env : RemoveEnv) (server file : String),
        (removeFile env server file).count (Effect.rm file server) = 1) ∧
    (∀ (env : RemoveEnv) (targets : List String) (server file : String),
        file ∈ env.ls server → file ∈ targets →
        Effect.rm file server ∈ removeServerScan env targets server) := by
  have hchar : ∀ (env : RemoveEnv) (server file : String),
      removeFile env server file
        = [Effect.print (Msg.found file server)]
          ++ concatMap (fun p =>
              [Effect.print (Msg.killing file server p.pid p.args),
               Effect.kill file server p.args])
            ((env.ps server).filter (fun p => p.filename = file))
          ++ (if (env.ps server).filter (fun p => p.filename = file) = []
              then [] else [Effect.sleep 100])
          ++ [Effect.rm file server,
              Effect.print (if env.rmOk file server then Msg.removed file server
                else Msg.removeFailed file server)] := by
    intro env server file
    obtain ⟨h1, h2⟩ := killLoop_spec file server (env.ps server)
    rw [removeFile, h1]
    by_cases hf : (env.ps server).filter (fun p => p.filename = file) = []
    · have hflag : ¬ (killLoop file server (env.ps server)).2 = true := by
        intro hc
        exact absurd hf (h2.mp hc)
      rw [if_neg hflag, if_pos hf]
    · rw [if_pos (h2.mpr hf), if_neg hf]
  refine ⟨hchar, ?_, ?_, ?_⟩
  · intro env server file a
    rw [removeFile]
    simp only [List.mem_append]
    constructor
    · rintro (((h | h) | h) | h)
      · simp at h
      · exact (killLoop_kill_mem file server a (env.ps server)).mp h
      · by_cases hfl : (killLoop file server (env.ps server)).2 <;>
          simp [hfl] at h
      · simp at h
    · intro h
      exact Or.inl (Or.inl (Or.inr
        ((killLoop_kill_mem file server a (env.ps server)).mpr h)))
  · intro env server file
    rw [removeFile]
    rw [List.count_append, List.count_append, List.count_append]
    have hc1 : (([Effect.print (Msg.found file server)] :
        List Effect).count (Effect.rm file server)) = 0 := by
      simp [List.count_singleton]
    have hc2 : ((killLoop file server (env.ps server)).1).count
        (Effect.rm file server) = 0 :=
      List.count_eq_zero.mpr (killLoop_no_rm file server file server _)
    have hc3 : ((if (killLoop file server (env.ps server)).2
        then [Effect.sleep 100] else []).count (Effect.rm file server)) = 0 := by
      by_cases h : (killLoop file server (env.ps server)).2 <;> simp [h]
    have hc4 : (([Effect.rm file server,
        Effect.print (if env.rmOk file server then Msg.removed file server
          else Msg.removeFailed file server)] :
        List Effect).count (Effect.rm file server)) = 1 := by
      by_cases h : env.rmOk file server <;> simp [h, List.count_cons]
    omega
  · intro env targets server file hls htgt
    rw [removeServerScan]
    refine List.mem_cons_of_mem _ ?_
    rw [mem_concatMap]
    refine ⟨file, hls, ?_⟩
    rw [if_pos htgt, hchar env server file]
    simp

/-- The concrete remove scenario of the spec: server `"A"` holds `hack.js`,
which is running with recorded arguments `["n00dles"]`, and deletion
succeeds. -/
def envC9 : RemoveEnv :=
  ⟨gEx, fun _ => ["hack.js"], fun _ => [⟨"hack.js", 7, ["n00dles"]⟩],
    fun _ _ => true⟩

/-- Witness for C9: on `envC9` the kill is issued with the exact recorded
arguments `["n00dles"]`, the deletion request appears exactly once, and the
deletion is attempted from the per-server scan. -/
theorem remove_kills_by_args_then_deletes_once_witness :
    (Effect.kill "hack.js" "A" ["n00dles"] ∈ removeFile envC9 "A" "hack.js") ∧
    ((removeFile envC9 "A" "hack.js").count (Effect.rm "hack.js" "A") = 1) ∧
    Effect.rm "hack.js" "A" ∈ removeServerScan envC9 ["hack.js"] "A" :=
  ⟨(remove_kills_by_args_then_deletes_once.2.1 envC9 "A" "hack.js"
      ["n00dles"]).mpr ⟨⟨"hack.js", 7, ["n00dles"]⟩, by decide, rfl, rfl⟩,
   remove_kills_by_args_then_deletes_once.2.2.1 envC9 "A" "hack.js",
   remove_kills_by_args_then_deletes_once.2.2.2 envC9 ["hack.js"] "A"
     "hack.js" (by decide) (by decide)⟩

/-! ### The early remove variant (no hop validation)

The older remove script reads `ns.args[0]` raw (`const targetHop =
ns.args[0] !== undefined ? ns.args[0] : 1;`) with no `isNaN`/positivity
check, and compares the BFS level against it with JS `<`/`<=`.  Script
arguments are modelled by `JSArg`; the in-game terminal delivers numeric
tokens as numbers, so a string argument is non-numeric and its `ToNumber`
coercion is NaN, making both comparisons false. -/

inductive JSArg where
  | num (q : Rat)
  | str (s : String)
  | bool (b : Bool)
  deriving DecidableEq

/-- JS `ToNumber`, `none` meaning NaN. -/
def jsToNumber : JSArg → Option Rat
  | .num q => some q
  | .bool b => some (if b then 1 else 0)
  | .str _ => none

/-- JS truthiness of an argument value. -/
def jsTruthy : JSArg → Bool
  | .num q => decide (q ≠ 0)
  | .str s => decide (s ≠ "")
  | .bool b => b

/-- JS `level <= maxHop` for a `Nat` level against a raw argument (false on
NaN). -/
def jsLE (l : Nat) (a : JSArg) : Bool :=
  match jsToNumber a with
  | some q => decide ((l : Rat) ≤ q)
  | none => false

/-- JS `level < maxHop` (false on NaN). -/
def jsLT (l : Nat) (a : JSArg) : Bool :=
  match jsToNumber a with
  | some q => decide ((l : Rat) < q)
  | none => false

/-- `getServersUpToLevel` of the early remove variant: the emission guard
compares the level against the raw hop argument, a private name (prefix
`"pserv"`) inside the emission range hits `continue`, which also skips that
node's expansion, and expansion is guarded by `level < maxHop`. -/
def bfsRemoveV0 (g : Graph) (maxHop : JSArg) (excludePrivate : Bool) :
    List (String × Nat) → Finset String → List String → List String
  | [], _, res => res
  | (s, l) :: rest, V, res =>
      if 0 < l ∧ jsLE l maxHop = true ∧ excludePrivate = true
          ∧ startsWithStr s "pserv" = true then
        bfsRemoveV0 g maxHop excludePrivate rest V res
      else
        if jsLT l maxHop = true then
          bfsRemoveV0 g maxHop excludePrivate
            (scanNew (fun _ => l + 1) (g.scan s) V rest).2
            (scanNew (fun _ => l + 1) (g.scan s) V rest).1
            (if 0 < l ∧ jsLE l maxHop = true then res ++ [s] else res)
        else
          bfsRemoveV0 g maxHop excludePrivate rest V
            (if 0 < l ∧ jsLE l maxHop = true then res ++ [s] else res)
termination_by q V _ => (g.nodeFinset \ V).card + q.length
decreasing_by
  · simp only [List.length_cons]
    omega
  · have h := scanNew_measure (fun _ => l + 1) g.nodeFinset (g.scan s) V rest
      (fun n hn => scan_subset_nodeFinset g s n hn)
    simp only [List.length_cons]
    omega
  · simp only [List.length_cons]
    omega

/-- `args[i]` lookup. -/
def argAt (args : List JSArg) (i : Nat) : Option JSArg := (args.drop i).head?

/-- The early remove `main`: no hop validation, hardcoded payload list
`["earlyhack.js"]`, empty manual exclusion list, filename-only kill with an
unconditional pause and an unreported `ns.rm`. -/
def removeMainV0 (env : RemoveEnv) (args : List JSArg) : List Effect :=
  (fun (servers : List String) =>
    (fun (servers2 manuallyExcluded : List String) =>
      [Effect.print Msg.separator, Effect.print (Msg.processing servers2),
       Effect.print Msg.separator,
       Effect.print (Msg.manuallyExcludedList manuallyExcluded),
       Effect.print Msg.separator]
      ++ concatMap (fun server =>
          Effect.print (Msg.scanning server)
            :: concatMap (fun file =>
                if file ∈ (["earlyhack.js"] : List String) then
                  [Effect.kill file server [],
                   Effect.print (Msg.attemptedStop file server),
                   Effect.sleep 100, Effect.rm file server,
                   Effect.print (Msg.removed file server)]
                else []) (env.ls server)) servers2)
      (servers.filter (fun s => !(([] : List String).contains s)))
      (servers.filter (fun s => ([] : List String).contains s)))
    (bfsRemoveV0 env.g ((argAt args 0).getD (JSArg.num 1))
      (jsTruthy ((argAt args 1).getD (JSArg.bool false)))
      [("home", 0)] {"home"} [])

/-- The remove environment used for the C6 evaluation: the `gEx` network,
with `earlyhack.js` present on every server. -/
def envC6 : RemoveEnv :=
  ⟨gEx, fun _ => ["earlyhack.js"], fun _ => [], fun _ _ => true⟩

/-- JS `String(arg)`.  A non-integer number is rendered as
`numerator/denominator`, an approximation of the decimal form JS prints;
the claims never exercise this case. -/
def jsToString : JSArg → String
  | .str s => s
  | .bool b => if b then "true" else "false"
  | .num q => if q.den = 1 then toString q.num
      else toString q.num ++ "/" ++ toString q.den

/-- `getServersUpToLevel` of `remove.js` (lines 116–140): like the deploy
BFS but with the validated (positive, possibly fractional) hop bound and
the `excludePrivate` filter, whose `continue` also skips the private
node's expansion. -/
def bfsRemoveR (g : Graph) (maxHop : Rat) (excludePrivate : Bool) :
    List (String × Nat) → Finset String → List String → List String
  | [], _, res => res
  | (s, l) :: rest, V, res =>
      if 0 < l ∧ (l : Rat) ≤ maxHop ∧ excludePrivate = true
          ∧ startsWithStr s "pserv" = true then
        bfsRemoveR g maxHop excludePrivate rest V res
      else
        if (l : Rat) < maxHop then
          bfsRemoveR g maxHop excludePrivate
            (scanNew (fun _ => l + 1) (g.scan s) V rest).2
            (scanNew (fun _ => l + 1) (g.scan s) V rest).1
            (if 0 < l ∧ (l : Rat) ≤ maxHop then res ++ [s] else res)
        else
          bfsRemoveR g maxHop excludePrivate rest V
            (if 0 < l ∧ (l : Rat) ≤ maxHop then res ++ [s] else res)
termination_by q V _ => (g.nodeFinset \ V).card + q.length
decreasing_by
  · simp only [List.length_cons]
    omega
  · have h := scanNew_measure (fun _ => l + 1) g.nodeFinset (g.scan s) V rest
      (fun n hn => scan_subset_nodeFinset g s n hn)
    simp only [List.length_cons]
    omega
  · simp only [List.length_cons]
    omega

def getServersUpToLevelR (g : Graph) (maxHop : Rat)
    (excludePrivate : Bool) : List String :=
  bfsRemoveR g maxHop excludePrivate [("home", 0)] {"home"} []

/-- `remove.js:main`: parse the hop argument with `Number`, abort with the
error print when it is NaN or non-positive, otherwise parse the script list
and the private toggle, report the configuration and the manual exclusions
(the hardcoded manual list is empty), and process every candidate server. -/
def removeMain (env : RemoveEnv) (args : List JSArg) : List Effect :=
  match (match argAt args 0 with
         | some a => jsToNumber a
         | none => some 1) with
  | none => [Effect.print Msg.errorInvalidHop]
  | some targetHop =>
      if targetHop ≤ 0 then [Effect.print Msg.errorInvalidHop]
      else
        (fun (scriptsToRemove : List String) (excludePrivate : Bool) =>
          (fun (servers : List String) =>
            [Effect.print (Msg.removingScripts scriptsToRemove),
             Effect.print (Msg.maxHopMsg targetHop),
             Effect.print (Msg.excludePrivateMsg excludePrivate),
             Effect.print Msg.separator,
             Effect.print (Msg.manuallyExcludedList
               (servers.filter (fun s => ([] : List String).contains s))),
             Effect.print Msg.separator]
            ++ concatMap (removeServerScan env scriptsToRemove)
                (servers.filter (fun s => !(([] : List String).contains s))))
            (getServersUpToLevelR env.g targetHop excludePrivate))
          (match argAt args 1 with
           | some a => ((jsToString a).splitOn ",").map String.trim
               |>.filter (fun s => decide (0 < s.length))
           | none => ["hack.js"])
          (match argAt args 2 with
           | some a => (jsToString a).toLower == "true"
           | none => false)

/-- C6: evaluation at the failing input, against the validated variant.
With the invalid hop argument `0`, the current `remove.js` aborts with
exactly the `ERROR: Invalid hop count` print and no further action, but the
early remove variant prints no error and proceeds past the point where
validation should abort: its whole trace is the five status prints (over an
empty server set), and the error message is never emitted. -/
theorem removeV0_zero_hop_no_error :
    removeMain envC6 [JSArg.num 0] = [Effect.print Msg.errorInvalidHop] ∧
    removeMainV0 envC6 [JSArg.num 0]
      = [Effect.print Msg.separator, Effect.print (Msg.processing []),
         Effect.print Msg.separator, Effect.print (Msg.manuallyExcludedList []),
         Effect.print Msg.separator] ∧
    Effect.print Msg.errorInvalidHop ∉ removeMainV0 envC6 [JSArg.num 0] := by
  have hvalid : removeMain envC6 [JSArg.num 0]
      = [Effect.print Msg.errorInvalidHop] := by
    rw [removeMain]
    simp [argAt, jsToNumber]
  have hlt : jsLT 0 (JSArg.num 0) = false := by
    simp [jsLT, jsToNumber]
  have hbfs : bfsRemoveV0 envC6.g (JSArg.num 0) false [("home", 0)] {"home"} []
      = [] := by
    rw [bfsRemoveV0]
    simp only [lt_irrefl, false_and, if_false, hlt, Bool.false_eq_true]
    rw [bfsRemoveV0]
  have htrace : removeMainV0 envC6 [JSArg.num 0]
      = [Effect.print Msg.separator, Effect.print (Msg.processing []),
         Effect.print Msg.separator, Effect.print (Msg.manuallyExcludedList []),
         Effect.print Msg.separator] := by
    rw [removeMainV0]
    simp only [argAt, List.drop, List.head?, Option.getD, jsTruthy]
    rw [hbfs]
    simp [concatMap]
  refine ⟨hvalid, htrace, ?_⟩
  rw [htrace]
  simp

end Bitburner

